import Mathlib

/-!
# Connection pool (pool/conn.go, pool/pool.go)

A shallow embedding of the Go package `pool`.

* A `*Connection` is an address (a natural number); `nil` is `Option.none`.
  The connection objects live in a store `heap : Nat → Connection`; addresses
  below `next` have been handed out by `newConnection`.
* `sem` is the number of elements buffered in the channel `p.sem` (tickets
  held), `wg` the counter of the `sync.WaitGroup`, `shutdownCh` tells whether
  the channel `p.shutdownCh` has been closed, `once` the state of `p.once`.
* The random draw `rand.Float32() > 0.10` of `HealthCheck` and the choice made
  by `select` when both of its cases are ready are arguments of the operations.
* Every operation is one atomic step between quiescent points, except `Drain`,
  which waits in the middle: it is split at `p.wg.Wait()` into `drainBegin`
  and `drainFinish`.  A call that cannot complete in a state yields
  `Call.blocked`; a call that would crash the process yields `Call.panicked`.
  A call that never returns has no state after it, so what it did before it
  got stuck is not represented.
* `borrowed` is bookkeeping of the callers, not a field of the Go struct: the
  connections returned by `Acquire` and not yet passed to `Release`.
* The semaphore length and the wait-group counter are natural numbers; the
  identifier counter is a 64-bit signed integer and wraps around.
-/

namespace pool

/-! ## conn.go -/

/-- Error values of the package: the two package variables of pool.go and the two
errors built with `errors.New` in conn.go. -/
inductive Err where
  | ErrPoolClosed
  | ErrTimeout
  | alreadyClosed
  | closedConnection
deriving DecidableEq, Repr

/-- Text of each error, as written in the source. -/
def Err.text : Err → String
  | .ErrPoolClosed => "pool closed for new acquires"
  | .ErrTimeout => "timeout acquiring connection"
  | .alreadyClosed => "already closed"
  | .closedConnection => "cannot use closed connection"

/-- The struct `Connection`: an identifier and the atomic `closed` flag. -/
structure Connection where
  id : Int
  closed : Bool
deriving DecidableEq, Repr

/-- Two's complement wrap-around of a 64-bit signed integer. -/
def wrapInt64 (x : Int) : Int := (x + 2 ^ 63) % 2 ^ 64 - 2 ^ 63

/-- `Close`: compare-and-swap of the flag from false to true; the first call
succeeds, any other reports "already closed". Returns the object afterwards
and the error. -/
def Connection.Close (c : Connection) : Connection × Option Err :=
  if c.closed = false then ({ c with closed := true }, none)
  else (c, some Err.alreadyClosed)

/-- `IsClosed`: load of the flag. -/
def Connection.IsClosed (c : Connection) : Bool := c.closed

/-- `HealthCheck`: false on a closed connection, otherwise the outcome `rnd` of
the random draw `rand.Float32() > 0.10`. -/
def Connection.HealthCheck (c : Connection) (rnd : Bool) : Bool :=
  if c.IsClosed then false else rnd

/-- `DoWork`: fails on a closed connection, otherwise sleeps and succeeds. The
object is not modified. -/
def Connection.DoWork (c : Connection) : Option Err :=
  if c.IsClosed then some Err.closedConnection else none

/-- `ID`: the identifier. -/
def Connection.ID (c : Connection) : Int := c.id

/-! ## pool.go: state -/

def defaultMaxConnections : Int := 10

/-- State of a `sync.Once`: not yet used, its function running, finished. -/
inductive OnceState where
  | fresh
  | running
  | done
deriving DecidableEq, Repr

/-- The struct `Pool`. -/
structure Pool where
  maxConns : Nat
  sem : Nat
  idle : List Nat
  closed : Bool
  wg : Nat
  shutdownCh : Bool
  once : OnceState
deriving DecidableEq, Repr

/-- The pool together with what surrounds it: the store of connection objects,
the allocation frontier, the package variable `connIDCounter`, and the
connections currently lent to callers. -/
structure World where
  heap : Nat → Connection
  next : Nat
  connIDCounter : Int
  pool : Pool
  borrowed : List Nat

/-- Result of calling an operation in a given state. -/
inductive Call (α : Type) where
  | returned (val : α) (w : World)
  | blocked
  | panicked

/-- `NewPool`: a non-positive size is replaced by the default; the semaphore
channel is empty, the idle slice is empty, the flag is false. -/
def NewPool (maxConns : Int) : Pool :=
  let maxConns := if maxConns ≤ 0 then defaultMaxConnections else maxConns
  { maxConns := maxConns.toNat
    sem := 0
    idle := []
    closed := false
    wg := 0
    shutdownCh := false
    once := OnceState.fresh }

/-- World right after `NewPool(maxConns)`, for any store of already existing
connection objects and any value of the identifier counter. -/
def World.start (maxConns : Int) (heap : Nat → Connection) (next : Nat) (ctr : Int) : World :=
  { heap := heap, next := next, connIDCounter := ctr, pool := NewPool maxConns, borrowed := [] }

/-- Store after calling `Close` on the object at address `c`. -/
def closeAt (heap : Nat → Connection) (c : Nat) : Nat → Connection :=
  fun x => if x = c then (heap c).Close.1 else heap x

/-- `newConnection`: increments the identifier counter atomically and allocates an
open connection carrying the new value. Returns its address. -/
def newConnection (w : World) : Nat × World :=
  let id := wrapInt64 (w.connIDCounter + 1)
  (w.next,
   { w with
     heap := fun x => if x = w.next then { id := id, closed := false } else w.heap x
     next := w.next + 1
     connIDCounter := id })

/-! ## pool.go: operations -/

/-- `Acquire`. `sel` is the choice of the `select` statement when both the
semaphore send and the shutdown receive are ready (true: the send). -/
def Acquire (sel : Bool) (w : World) : Call (Option Nat × Option Err) :=
  if w.pool.closed then Call.returned (none, some Err.ErrPoolClosed) w
  else
    let semReady : Bool := decide (w.pool.sem < w.pool.maxConns)
    let shutReady : Bool := w.pool.shutdownCh
    if !semReady && !shutReady then Call.blocked
    else if shutReady && (!semReady || !sel) then
      Call.returned (none, some Err.ErrPoolClosed) w
    else
      let w1 : World := { w with pool := { w.pool with sem := w.pool.sem + 1 } }
      let popped : Option Nat × World :=
        if 0 < w1.pool.idle.length then
          (w1.pool.idle.getLast?, { w1 with pool := { w1.pool with idle := w1.pool.idle.dropLast } })
        else (none, w1)
      let made : Nat × World :=
        match popped.1 with
        | some c => (c, popped.2)
        | none => newConnection popped.2
      let w3 := made.2
      Call.returned (some made.1, none)
        { w3 with
          pool := { w3.pool with wg := w3.pool.wg + 1 }
          borrowed := w3.borrowed ++ [made.1] }

/-- Bookkeeping of the callers: the connection passed to `Release` is no longer
borrowed. -/
def handBack (conn : Option Nat) (borrowed : List Nat) : List Nat :=
  match conn with
  | some c => borrowed.erase c
  | none => borrowed

/-- The tail shared by every branch of `Release`: the receive `<-p.sem`, which
waits on an empty channel, then the deferred `p.wg.Done()`, which panics on a
zero counter, then `return nil`. -/
def releaseTicket (conn : Option Nat) (w : World) : Call (Option Err) :=
  if w.pool.sem = 0 then Call.blocked
  else if w.pool.wg = 0 then Call.panicked
  else
    Call.returned none
      { w with
        pool := { w.pool with sem := w.pool.sem - 1, wg := w.pool.wg - 1 }
        borrowed := handBack conn w.borrowed }

/-- `Release`. `rnd` is the random draw of the health check. -/
def Release (conn : Option Nat) (rnd : Bool) (w : World) : Call (Option Err) :=
  match conn with
  | none => releaseTicket none w
  | some c =>
    if (w.heap c).IsClosed then releaseTicket conn w
    else if !(w.heap c).HealthCheck rnd then
      releaseTicket conn { w with heap := closeAt w.heap c }
    else if w.pool.closed then
      releaseTicket conn { w with heap := closeAt w.heap c }
    else
      releaseTicket conn { w with pool := { w.pool with idle := w.pool.idle ++ [c] } }

/-- The loop of `cleanIdle`: `i` counts the iterations, `rand i` is the random
draw of the health check of iteration `i`, `live` the slice built so far. -/
def cleanIdleLoop (rand : Nat → Bool) :
    Nat → List Nat → (Nat → Connection) → List Nat → (Nat → Connection) × List Nat
  | _, [], heap, live => (heap, live)
  | i, c :: rest, heap, live =>
    if (heap c).HealthCheck (rand i) && !(heap c).IsClosed then
      cleanIdleLoop rand (i + 1) rest heap (live ++ [c])
    else
      cleanIdleLoop rand (i + 1) rest (closeAt heap c) live

/-- `cleanIdle`: one sweep of the background health check. -/
def cleanIdle (rand : Nat → Bool) (w : World) : World :=
  let r := cleanIdleLoop rand 0 w.pool.idle w.heap []
  { w with heap := r.1, pool := { w.pool with idle := r.2 } }

/-- The loop of `Drain` that closes every idle connection. -/
def closeAll : List Nat → (Nat → Connection) → (Nat → Connection)
  | [], heap => heap
  | c :: rest, heap => closeAll rest (closeAt heap c)

/-- First part of the function run by `p.once` in `Drain`: store the closed flag
and close the shutdown channel. The caller then waits in `p.wg.Wait()`. -/
def drainBegin (w : World) : World :=
  { w with pool := { w.pool with closed := true, shutdownCh := true, once := OnceState.running } }

/-- Second part, after `p.wg.Wait()` has returned: close every idle connection and
set the idle slice to nil; `p.once` is then done. -/
def drainFinish (w : World) : World :=
  { w with
    heap := closeAll w.pool.idle w.heap
    pool := { w.pool with idle := [], once := OnceState.done } }

/-- `Drain` called with no other goroutine running in between. A finished `once`
makes the call a no-op; while another caller is inside `once` the call waits;
otherwise the function runs, and `p.wg.Wait()` returns only on a zero counter. -/
def Drain (w : World) : Call Unit :=
  match w.pool.once with
  | OnceState.done => Call.returned () w
  | OnceState.running => Call.blocked
  | OnceState.fresh =>
    let w1 := drainBegin w
    if w1.pool.wg = 0 then Call.returned () (drainFinish w1) else Call.blocked

/-- `IdleCount`. -/
def IdleCount (w : World) : Int := (w.pool.idle.length : Int)

/-! ## Steps between quiescent points -/

/-- What can happen between two quiescent points. -/
inductive Action where
  | acquire (sel : Bool)
  | release (conn : Option Nat) (rnd : Bool)
  | sweep (rand : Nat → Bool)
  | drainBegin
  | drainFinish
  | callerClose (c : Nat)

/-- The state after a call, when the call completes. -/
def Call.world? {α : Type} : Call α → Option World
  | Call.returned _ w => some w
  | Call.blocked => none
  | Call.panicked => none

/-- One step. A call that does not complete is not a step. `drainBegin` is the
first `Drain` call entering `p.once`; `drainFinish` is that call leaving
`p.wg.Wait()`. `callerClose` is a caller calling `Close` on a connection. -/
def step (a : Action) (w : World) : Option World :=
  match a with
  | Action.acquire sel => (Acquire sel w).world?
  | Action.release conn rnd => (Release conn rnd w).world?
  | Action.sweep rand => some (cleanIdle rand w)
  | Action.drainBegin =>
    if w.pool.once = OnceState.fresh then some (drainBegin w) else none
  | Action.drainFinish =>
    if w.pool.once = OnceState.running ∧ w.pool.wg = 0 then some (drainFinish w) else none
  | Action.callerClose c => some { w with heap := closeAt w.heap c }

/-- A sequence of steps. -/
def run : List Action → World → Option World
  | [], w => some w
  | a :: rest, w => (step a w).bind (run rest)

/-- The caller contract: only a connection currently borrowed is released, and a
caller never closes a connection itself. -/
def obeys (a : Action) (w : World) : Bool :=
  match a with
  | Action.release (some c) _ => decide (c ∈ w.borrowed)
  | Action.release none _ => false
  | Action.callerClose _ => false
  | _ => true

/-- A sequence of steps in which every step obeys the caller contract. -/
def runContract : List Action → World → Option World
  | [], w => some w
  | a :: rest, w => if obeys a w then (step a w).bind (runContract rest) else none

/-- Facts about the counters and latches that hold at every quiescent point. -/
structure Inv (w : World) : Prop where
  wg_sem : w.pool.wg = w.pool.sem
  live_le : w.pool.idle.length + w.pool.sem ≤ w.pool.maxConns
  latch : w.pool.shutdownCh = w.pool.closed
  fresh_open : w.pool.once = OnceState.fresh ↔ w.pool.closed = false
  done_empty : w.pool.once = OnceState.done → w.pool.idle = []

/-- A store in which every object is the zero value `Connection{}`. -/
def zeroHeap : Nat → Connection := fun _ => { id := 0, closed := false }

/-- Written from the words of the specification of the sweep: the sub-list, in
the original order, of the idle connections that pass the health check and
are not closed, judged on the store as it is before the sweep; `rand i` is the
random draw for the connection at position `i`. -/
def survivors (heap : Nat → Connection) (rand : Nat → Bool) : Nat → List Nat → List Nat
  | _, [] => []
  | i, c :: rest =>
    if (heap c).HealthCheck (rand i) && !(heap c).IsClosed then
      c :: survivors heap rand (i + 1) rest
    else survivors heap rand (i + 1) rest

/-- Who holds which connection: no connection is idle twice or lent twice or both
idle and lent, idle and lent connections are open objects that exist, and
there is one ticket per lent connection. -/
structure Owned (w : World) : Prop where
  idle_nodup : w.pool.idle.Nodup
  borrowed_nodup : w.borrowed.Nodup
  apart : ∀ c ∈ w.pool.idle, c ∉ w.borrowed
  idle_open : ∀ c ∈ w.pool.idle, (w.heap c).closed = false
  borrowed_open : ∀ c ∈ w.borrowed, (w.heap c).closed = false
  idle_exists : ∀ c ∈ w.pool.idle, c < w.next
  borrowed_exists : ∀ c ∈ w.borrowed, c < w.next
  tickets : w.borrowed.length = w.pool.sem

/-- The state after one Acquire on a new pool of capacity 2 over `zeroHeap`:
connection 0, with identifier 1, is borrowed. -/
def oneBorrowed : World :=
  { heap := fun x => if x = 0 then { id := 1, closed := false } else zeroHeap x
    next := 1
    connIDCounter := 1
    pool := { maxConns := 2, sem := 1, idle := [], closed := false, wg := 1,
              shutdownCh := false, once := OnceState.fresh }
    borrowed := [0] }

/-- The scenario of the drain: on a pool of capacity 10 seven connections are
borrowed and the last four are released healthy, so three are outstanding and
four are idle. -/
def drainScenario : List Action :=
  [Action.acquire true, Action.acquire true, Action.acquire true, Action.acquire true,
   Action.acquire true, Action.acquire true, Action.acquire true,
   Action.release (some 3) true, Action.release (some 4) true,
   Action.release (some 5) true, Action.release (some 6) true]

/-! ## Connections -/

theorem Close_closed (c : Connection) : c.Close.1.closed = true := by
  unfold Connection.Close
  cases h : c.closed <;> simp [h]

theorem closeAt_same (heap : Nat → Connection) (c : Nat) :
    (closeAt heap c c).closed = true := by
  simp [closeAt, Close_closed]

theorem closeAt_other (heap : Nat → Connection) (c x : Nat) (h : x ≠ c) :
    closeAt heap c x = heap x := by
  simp [closeAt, h]

theorem closeAt_mono (heap : Nat → Connection) (c x : Nat) (h : (heap x).closed = true) :
    (closeAt heap c x).closed = true := by
  by_cases hx : x = c
  · subst hx; exact closeAt_same heap x
  · rw [closeAt_other heap c x hx]; exact h

/-! ## What a completed call did -/

/-- A completed `Acquire` either failed with `ErrPoolClosed` and changed nothing,
or took a ticket and lent the last idle connection, or a new one when no
connection was idle. -/
theorem Acquire_cases (sel : Bool) (w w' : World) (r : Option Nat × Option Err)
    (h : Acquire sel w = Call.returned r w') :
    (r = (none, some Err.ErrPoolClosed) ∧ w' = w ∧
      (w.pool.closed = true ∨ w.pool.shutdownCh = true)) ∨
    (w.pool.closed = false ∧ w.pool.sem < w.pool.maxConns ∧
      w'.pool = ⟨w.pool.maxConns, w.pool.sem + 1, w.pool.idle.dropLast, w.pool.closed,
        w.pool.wg + 1, w.pool.shutdownCh, w.pool.once⟩ ∧
      ∃ c, r = (some c, none) ∧ w'.borrowed = w.borrowed ++ [c] ∧
        ((w.pool.idle ≠ [] ∧ w.pool.idle.getLast? = some c ∧ w'.heap = w.heap ∧
            w'.next = w.next) ∨
         (w.pool.idle = [] ∧ c = w.next ∧ w'.next = w.next + 1 ∧
            w'.heap = fun x =>
              if x = w.next then { id := wrapInt64 (w.connIDCounter + 1), closed := false }
              else w.heap x))) := by
  unfold Acquire at h
  by_cases hc : w.pool.closed = true
  · simp only [hc, if_true] at h
    injection h with h1 h2
    exact Or.inl ⟨h1.symm, h2.symm, Or.inl hc⟩
  · have hc' : w.pool.closed = false := by simpa using hc
    rw [if_neg hc] at h
    by_cases hs : w.pool.sem < w.pool.maxConns
    · by_cases hsh : w.pool.shutdownCh = true ∧ sel = false
      · obtain ⟨h1, h2⟩ := hsh
        simp [hs, h1, h2] at h
        obtain ⟨h3, h4⟩ := h
        exact Or.inl ⟨h3.symm, h4.symm, Or.inr h1⟩
      · have hsel : (w.pool.shutdownCh && (!decide (w.pool.sem < w.pool.maxConns) || !sel)) = false := by
          cases hsd : w.pool.shutdownCh <;> cases sel <;> simp_all
        have hblk : (!decide (w.pool.sem < w.pool.maxConns) && !w.pool.shutdownCh) = false := by
          simp [hs]
        simp only [hsel, hblk, Bool.false_eq_true, if_false] at h
        right
        refine ⟨hc', hs, ?_⟩
        cases hidle : w.pool.idle with
        | nil =>
          simp only [hidle, List.length_nil, Nat.lt_irrefl, if_false, newConnection] at h
          injection h with h3 h4
          subst h4
          exact ⟨rfl, w.next, h3.symm, rfl, Or.inr ⟨rfl, rfl, rfl, rfl⟩⟩
        | cons a l =>
          have hne : a :: l ≠ [] := by simp
          obtain ⟨c, hlast⟩ : ∃ c, (a :: l).getLast? = some c :=
            ⟨(a :: l).getLast hne, List.getLast?_eq_getLast _ hne⟩
          simp only [hidle, hlast, List.length_cons, Nat.zero_lt_succ, if_true] at h
          injection h with h3 h4
          subst h4
          exact ⟨rfl, c, h3.symm, rfl, Or.inl ⟨hne, hlast, rfl, rfl⟩⟩
    · by_cases hsh : w.pool.shutdownCh = true
      · simp [hs, hsh] at h
        obtain ⟨h3, h4⟩ := h
        exact Or.inl ⟨h3.symm, h4.symm, Or.inr hsh⟩
      · simp [hs, hsh] at h

/-- On an open pool with a free ticket `Acquire` completes and lends a connection. -/
theorem Acquire_lends (sel : Bool) (w : World) (hc : w.pool.closed = false)
    (hsh : w.pool.shutdownCh = false) (hs : w.pool.sem < w.pool.maxConns) :
    ∃ c w', Acquire sel w = Call.returned (some c, none) w' := by
  unfold Acquire
  simp only [hc, hsh, hs, Bool.false_eq_true, if_false, decide_True, Bool.not_true,
    Bool.false_and, Bool.and_false]
  exact ⟨_, _, rfl⟩

/-- A completed `releaseTicket` gave back one ticket and lowered the wait-group
counter by one. -/
theorem releaseTicket_cases (conn : Option Nat) (w w' : World) (r : Option Err)
    (h : releaseTicket conn w = Call.returned r w') :
    r = none ∧ 0 < w.pool.sem ∧ 0 < w.pool.wg ∧
    w'.pool = ⟨w.pool.maxConns, w.pool.sem - 1, w.pool.idle, w.pool.closed,
      w.pool.wg - 1, w.pool.shutdownCh, w.pool.once⟩ ∧
    w'.heap = w.heap ∧ w'.next = w.next ∧ w'.connIDCounter = w.connIDCounter ∧
    w'.borrowed = handBack conn w.borrowed := by
  unfold releaseTicket at h
  by_cases h1 : w.pool.sem = 0
  · simp [h1] at h
  · by_cases h2 : w.pool.wg = 0
    · simp [h1, h2] at h
    · simp only [h1, h2, if_false] at h
      injection h with h3 h4
      subst h4
      exact ⟨h3.symm, Nat.pos_of_ne_zero h1, Nat.pos_of_ne_zero h2, rfl, rfl, rfl, rfl, rfl⟩

/-- With a ticket held and a positive counter `releaseTicket` completes. -/
theorem releaseTicket_ok (conn : Option Nat) (w : World) (h1 : 0 < w.pool.sem)
    (h2 : 0 < w.pool.wg) : ∃ w', releaseTicket conn w = Call.returned none w' := by
  unfold releaseTicket
  simp only [Nat.ne_of_gt h1, Nat.ne_of_gt h2, if_false]
  exact ⟨_, rfl⟩

/-- A completed `Release` returned nil, gave back one ticket, lowered the counter
by one, and either appended the connection to the idle slice (open, healthy,
pool not draining) or left the idle slice alone. -/
theorem Release_cases (conn : Option Nat) (rnd : Bool) (w w' : World) (r : Option Err)
    (h : Release conn rnd w = Call.returned r w') :
    r = none ∧ 0 < w.pool.sem ∧ 0 < w.pool.wg ∧
    w'.pool.sem = w.pool.sem - 1 ∧ w'.pool.wg = w.pool.wg - 1 ∧
    w'.pool.maxConns = w.pool.maxConns ∧ w'.pool.closed = w.pool.closed ∧
    w'.pool.shutdownCh = w.pool.shutdownCh ∧ w'.pool.once = w.pool.once ∧
    w'.next = w.next ∧ w'.connIDCounter = w.connIDCounter ∧
    w'.borrowed = handBack conn w.borrowed ∧
    ((∃ c, conn = some c ∧ (w.heap c).closed = false ∧ rnd = true ∧ w.pool.closed = false ∧
        w'.pool.idle = w.pool.idle ++ [c] ∧ w'.heap = w.heap) ∨
     (w'.pool.idle = w.pool.idle ∧
       ((conn = none ∧ w'.heap = w.heap) ∨
        (∃ c, conn = some c ∧ (w.heap c).closed = true ∧ w'.heap = w.heap) ∨
        (∃ c, conn = some c ∧ (w.heap c).closed = false ∧
          (rnd = false ∨ w.pool.closed = true) ∧ w'.heap = closeAt w.heap c)))) := by
  unfold Release at h
  cases conn with
  | none =>
    obtain ⟨h1, h2, h3, h4, h5, h6, h7, h8⟩ := releaseTicket_cases _ _ _ _ h
    refine ⟨h1, h2, h3, by rw [h4], by rw [h4], by rw [h4], by rw [h4], by rw [h4],
      by rw [h4], h6, h7, h8, Or.inr ⟨by rw [h4], Or.inl ⟨rfl, h5⟩⟩⟩
  | some c =>
    simp only [Connection.HealthCheck, Connection.IsClosed] at h
    cases hcl : (w.heap c).closed with
    | true =>
      simp only [hcl, if_true] at h
      obtain ⟨h1, h2, h3, h4, h5, h6, h7, h8⟩ := releaseTicket_cases _ _ _ _ h
      refine ⟨h1, h2, h3, by rw [h4], by rw [h4], by rw [h4], by rw [h4], by rw [h4],
        by rw [h4], h6, h7, h8, Or.inr ⟨by rw [h4], Or.inr (Or.inl ⟨c, rfl, hcl, h5⟩)⟩⟩
    | false =>
      simp only [hcl, Bool.false_eq_true, if_false] at h
      cases hr : rnd with
      | false =>
        simp only [hr, Bool.not_false, if_true] at h
        obtain ⟨h1, h2, h3, h4, h5, h6, h7, h8⟩ := releaseTicket_cases _ _ _ _ h
        refine ⟨h1, h2, h3, by rw [h4], by rw [h4], by rw [h4], by rw [h4], by rw [h4],
          by rw [h4], h6, h7, h8,
          Or.inr ⟨by rw [h4], Or.inr (Or.inr ⟨c, rfl, hcl, Or.inl rfl, h5⟩)⟩⟩
      | true =>
        simp only [hr, Bool.not_true, Bool.false_eq_true, if_false] at h
        cases hpc : w.pool.closed with
        | true =>
          simp only [hpc, if_true] at h
          obtain ⟨h1, h2, h3, h4, h5, h6, h7, h8⟩ := releaseTicket_cases _ _ _ _ h
          refine ⟨h1, h2, h3, by rw [h4], by rw [h4], by rw [h4], by rw [h4]; exact hpc, by rw [h4],
            by rw [h4], h6, h7, h8,
            Or.inr ⟨by rw [h4], Or.inr (Or.inr ⟨c, rfl, hcl, Or.inr rfl, h5⟩)⟩⟩
        | false =>
          simp only [hpc, Bool.false_eq_true, if_false] at h
          obtain ⟨h1, h2, h3, h4, h5, h6, h7, h8⟩ := releaseTicket_cases _ _ _ _ h
          refine ⟨h1, h2, h3, by rw [h4], by rw [h4], by rw [h4], by rw [h4], by rw [h4],
            by rw [h4], h6, h7, h8, Or.inl ⟨c, rfl, hcl, rfl, rfl, by rw [h4], h5⟩⟩

/-- With a ticket held and a positive counter `Release` completes, whatever its
argument. -/
theorem Release_ok (conn : Option Nat) (rnd : Bool) (w : World) (h1 : 0 < w.pool.sem)
    (h2 : 0 < w.pool.wg) : ∃ w', Release conn rnd w = Call.returned none w' := by
  unfold Release
  cases conn with
  | none => exact releaseTicket_ok _ _ h1 h2
  | some c =>
    dsimp only
    split_ifs
    · exact releaseTicket_ok _ _ h1 h2
    · exact releaseTicket_ok _ _ h1 h2
    · exact releaseTicket_ok _ _ h1 h2
    · exact releaseTicket_ok _ _ h1 h2

/-! ## The sweep -/

/-- The loop only appends to `live`, and what it appends is a sub-list of the
slice it scans. -/
theorem cleanIdleLoop_live (rand : Nat → Bool) (rest : List Nat) :
    ∀ (i : Nat) (heap : Nat → Connection) (live : List Nat),
      ∃ l, (cleanIdleLoop rand i rest heap live).2 = live ++ l ∧ l.Sublist rest := by
  induction rest with
  | nil => intro i heap live; exact ⟨[], by simp [cleanIdleLoop], List.Sublist.refl _⟩
  | cons c rest ih =>
    intro i heap live
    unfold cleanIdleLoop
    split_ifs
    · obtain ⟨l, h1, h2⟩ := ih (i + 1) heap (live ++ [c])
      exact ⟨c :: l, by simp [h1], h2.cons₂ c⟩
    · obtain ⟨l, h1, h2⟩ := ih (i + 1) (closeAt heap c) live
      exact ⟨l, h1, h2.cons c⟩

/-- The loop never reopens a connection. -/
theorem cleanIdleLoop_mono (rand : Nat → Bool) (rest : List Nat) :
    ∀ (i : Nat) (heap : Nat → Connection) (live : List Nat) (x : Nat),
      (heap x).closed = true → ((cleanIdleLoop rand i rest heap live).1 x).closed = true := by
  induction rest with
  | nil => intro i heap live x h; simpa [cleanIdleLoop] using h
  | cons c rest ih =>
    intro i heap live x h
    unfold cleanIdleLoop
    split_ifs
    · exact ih _ _ _ _ h
    · exact ih _ _ _ _ (closeAt_mono heap c x h)

/-- The loop touches only the connections of the slice it scans. -/
theorem cleanIdleLoop_frame (rand : Nat → Bool) (rest : List Nat) :
    ∀ (i : Nat) (heap : Nat → Connection) (live : List Nat) (x : Nat),
      x ∉ rest → (cleanIdleLoop rand i rest heap live).1 x = heap x := by
  induction rest with
  | nil => intro i heap live x _; simp [cleanIdleLoop]
  | cons c rest ih =>
    intro i heap live x hx
    have hxc : x ≠ c := fun e => hx (by simp [e])
    have hxr : x ∉ rest := fun e => hx (by simp [e])
    unfold cleanIdleLoop
    split_ifs
    · exact ih _ _ _ _ hxr
    · rw [ih _ _ _ _ hxr, closeAt_other heap c x hxc]

theorem cleanIdle_idle_sublist (rand : Nat → Bool) (w : World) :
    (cleanIdle rand w).pool.idle.Sublist w.pool.idle := by
  obtain ⟨l, h1, h2⟩ := cleanIdleLoop_live rand w.pool.idle 0 w.heap []
  simp only [cleanIdle, h1, List.nil_append]
  exact h2

theorem closeAll_mono (l : List Nat) :
    ∀ (heap : Nat → Connection) (x : Nat),
      (heap x).closed = true → (closeAll l heap x).closed = true := by
  induction l with
  | nil => intro heap x h; simpa [closeAll] using h
  | cons c rest ih =>
    intro heap x h
    exact ih _ _ (closeAt_mono heap c x h)

theorem closeAll_frame (l : List Nat) :
    ∀ (heap : Nat → Connection) (x : Nat), x ∉ l → closeAll l heap x = heap x := by
  induction l with
  | nil => intro heap x _; simp [closeAll]
  | cons c rest ih =>
    intro heap x hx
    have hxc : x ≠ c := fun e => hx (by simp [e])
    have hxr : x ∉ rest := fun e => hx (by simp [e])
    simp only [closeAll]
    rw [ih _ _ hxr, closeAt_other heap c x hxc]

theorem closeAll_closed (l : List Nat) :
    ∀ (heap : Nat → Connection) (x : Nat), x ∈ l → (closeAll l heap x).closed = true := by
  induction l with
  | nil => intro heap x hx; simp at hx
  | cons c rest ih =>
    intro heap x hx
    simp only [closeAll]
    by_cases hxr : x ∈ rest
    · exact ih _ _ hxr
    · have hxc : x = c := by
        rcases List.mem_cons.mp hx with e | e
        · exact e
        · exact absurd e hxr
      subst hxc
      exact closeAll_mono rest _ _ (closeAt_same heap x)

/-! ## Counters at quiescent points -/

theorem Inv_start (n : Int) (heap : Nat → Connection) (next : Nat) (ctr : Int) :
    Inv (World.start n heap next ctr) := by
  constructor <;> simp [World.start, NewPool]

theorem step_Inv (a : Action) (w w' : World) (hi : Inv w) (h : step a w = some w') :
    Inv w' ∧ w'.pool.maxConns = w.pool.maxConns := by
  obtain ⟨i1, i2, i3, i4, i5⟩ := hi
  cases a with
  | acquire sel =>
    simp only [step] at h
    cases hq : Acquire sel w with
    | blocked => simp [hq, Call.world?] at h
    | panicked => simp [hq, Call.world?] at h
    | returned r w2 =>
      simp only [hq, Call.world?, Option.some.injEq] at h
      subst h
      rcases Acquire_cases sel w w2 r hq with ⟨_, e, _⟩ | ⟨hc, hs, hp, _⟩
      · subst e; exact ⟨⟨i1, i2, i3, i4, i5⟩, rfl⟩
      · have hfresh : w.pool.once = OnceState.fresh := i4.mpr hc
        refine ⟨⟨?_, ?_, ?_, ?_, ?_⟩, ?_⟩
        · rw [hp]; simp [i1]
        · rw [hp]
          simp only [List.length_dropLast]
          omega
        · rw [hp]; exact i3
        · rw [hp]; exact i4
        · rw [hp]; simp [hfresh]
        · rw [hp]
  | release conn rnd =>
    simp only [step] at h
    cases hq : Release conn rnd w with
    | blocked => simp [hq, Call.world?] at h
    | panicked => simp [hq, Call.world?] at h
    | returned r w2 =>
      simp only [hq, Call.world?, Option.some.injEq] at h
      subst h
      obtain ⟨_, h2, h3, h4, h5, h6, h7, h8, h9, _, _, _, hidle⟩ :=
        Release_cases conn rnd w w2 r hq
      refine ⟨⟨?_, ?_, ?_, ?_, ?_⟩, h6⟩
      · rw [h4, h5, i1]
      · rw [h4, h6]
        rcases hidle with ⟨c, _, _, _, _, e, _⟩ | ⟨e, _⟩
        · rw [e]; simp only [List.length_append, List.length_singleton]; omega
        · rw [e]; omega
      · rw [h7, h8]; exact i3
      · rw [h7, h9]; exact i4
      · rw [h9]
        intro hd
        rcases hidle with ⟨c, _, _, _, hc, _, _⟩ | ⟨e, _⟩
        · have := i4.mpr hc
          rw [this] at hd
          cases hd
        · rw [e]; exact i5 hd
  | sweep rand =>
    simp only [step, Option.some.injEq] at h
    subst h
    have hsub := cleanIdle_idle_sublist rand w
    have hlen := hsub.length_le
    refine ⟨⟨i1, ?_, i3, i4, ?_⟩, rfl⟩
    · show (cleanIdle rand w).pool.idle.length + w.pool.sem ≤ w.pool.maxConns
      omega
    · intro hd
      have he : w.pool.idle = [] := i5 hd
      rw [he] at hsub
      exact List.sublist_nil.mp hsub
  | drainBegin =>
    simp only [step] at h
    by_cases hf : w.pool.once = OnceState.fresh
    · simp only [hf, if_true, Option.some.injEq] at h
      subst h
      refine ⟨⟨i1, i2, rfl, ?_, ?_⟩, rfl⟩
      · simp [drainBegin]
      · simp [drainBegin]
    · simp [hf] at h
  | drainFinish =>
    simp only [step] at h
    by_cases hf : w.pool.once = OnceState.running ∧ w.pool.wg = 0
    · simp only [hf, and_self, if_true, Option.some.injEq] at h
      subst h
      have hcl : w.pool.closed = true := by
        cases hc : w.pool.closed with
        | true => rfl
        | false =>
          have := i4.mpr hc
          rw [hf.1] at this
          cases this
      refine ⟨⟨i1, ?_, i3, ?_, ?_⟩, rfl⟩
      · simp only [drainFinish, List.length_nil]; omega
      · simp [drainFinish, hcl]
      · simp [drainFinish]
    · simp [hf] at h
  | callerClose c =>
    simp only [step, Option.some.injEq] at h
    subst h
    exact ⟨⟨i1, i2, i3, i4, i5⟩, rfl⟩

theorem run_Inv (acts : List Action) :
    ∀ (w w' : World), Inv w → run acts w = some w' →
      Inv w' ∧ w'.pool.maxConns = w.pool.maxConns := by
  induction acts with
  | nil =>
    intro w w' hi h
    simp only [run, Option.some.injEq] at h
    subst h
    exact ⟨hi, rfl⟩
  | cons a rest ih =>
    intro w w' hi h
    simp only [run] at h
    cases hs : step a w with
    | none => simp [hs] at h
    | some w1 =>
      simp only [hs, Option.some_bind] at h
      obtain ⟨hi1, hm1⟩ := step_Inv a w w1 hi hs
      obtain ⟨hi2, hm2⟩ := ih w1 w' hi1 h
      exact ⟨hi2, hm2.trans hm1⟩

theorem step_sem_mono (a : Action) (w w' : World)
    (hn : ∀ conn rnd, a ≠ Action.release conn rnd) (h : step a w = some w') :
    w.pool.sem ≤ w'.pool.sem := by
  cases a with
  | acquire sel =>
    simp only [step] at h
    cases hq : Acquire sel w with
    | blocked => simp [hq, Call.world?] at h
    | panicked => simp [hq, Call.world?] at h
    | returned r w2 =>
      simp only [hq, Call.world?, Option.some.injEq] at h
      subst h
      rcases Acquire_cases sel w w2 r hq with ⟨_, e, _⟩ | ⟨_, _, hp, _⟩
      · subst e; exact Nat.le_refl _
      · rw [hp]; exact Nat.le_succ _
  | release conn rnd => exact absurd rfl (hn conn rnd)
  | sweep rand =>
    simp only [step, Option.some.injEq] at h
    subst h; exact Nat.le_refl _
  | drainBegin =>
    simp only [step] at h
    by_cases hf : w.pool.once = OnceState.fresh
    · simp only [hf, if_true, Option.some.injEq] at h
      subst h; exact Nat.le_refl _
    · simp [hf] at h
  | drainFinish =>
    simp only [step] at h
    by_cases hf : w.pool.once = OnceState.running ∧ w.pool.wg = 0
    · simp only [hf, and_self, if_true, Option.some.injEq] at h
      subst h; exact Nat.le_refl _
    · simp [hf] at h
  | callerClose c =>
    simp only [step, Option.some.injEq] at h
    subst h; exact Nat.le_refl _

theorem run_sem_mono (acts : List Action) :
    ∀ (w w' : World), (∀ a ∈ acts, ∀ conn rnd, a ≠ Action.release conn rnd) →
      run acts w = some w' → w.pool.sem ≤ w'.pool.sem := by
  induction acts with
  | nil =>
    intro w w' _ h
    simp only [run, Option.some.injEq] at h
    subst h; exact Nat.le_refl _
  | cons a rest ih =>
    intro w w' hn h
    simp only [run] at h
    cases hs : step a w with
    | none => simp [hs] at h
    | some w1 =>
      simp only [hs, Option.some_bind] at h
      have h1 := step_sem_mono a w w1 (hn a (List.mem_cons_self _ _)) hs
      have h2 := ih w1 w' (fun b hb => hn b (List.mem_cons_of_mem _ hb)) h
      exact Nat.le_trans h1 h2

theorem step_once_done (a : Action) (w w' : World) (hd : w.pool.once = OnceState.done)
    (h : step a w = some w') : w'.pool.once = OnceState.done := by
  cases a with
  | acquire sel =>
    simp only [step] at h
    cases hq : Acquire sel w with
    | blocked => simp [hq, Call.world?] at h
    | panicked => simp [hq, Call.world?] at h
    | returned r w2 =>
      simp only [hq, Call.world?, Option.some.injEq] at h
      subst h
      rcases Acquire_cases sel w w2 r hq with ⟨_, e, _⟩ | ⟨_, _, hp, _⟩
      · subst e; exact hd
      · rw [hp]; exact hd
  | release conn rnd =>
    simp only [step] at h
    cases hq : Release conn rnd w with
    | blocked => simp [hq, Call.world?] at h
    | panicked => simp [hq, Call.world?] at h
    | returned r w2 =>
      simp only [hq, Call.world?, Option.some.injEq] at h
      subst h
      obtain ⟨_, _, _, _, _, _, _, _, h9, _⟩ := Release_cases conn rnd w w2 r hq
      rw [h9]; exact hd
  | sweep rand =>
    simp only [step, Option.some.injEq] at h
    subst h; exact hd
  | drainBegin =>
    simp only [step] at h
    simp [hd] at h
  | drainFinish =>
    simp only [step] at h
    simp [hd] at h
  | callerClose c =>
    simp only [step, Option.some.injEq] at h
    subst h; exact hd

theorem run_once_done (acts : List Action) :
    ∀ (w w' : World), w.pool.once = OnceState.done → run acts w = some w' →
      w'.pool.once = OnceState.done := by
  induction acts with
  | nil =>
    intro w w' hd h
    simp only [run, Option.some.injEq] at h
    subst h; exact hd
  | cons a rest ih =>
    intro w w' hd h
    simp only [run] at h
    cases hs : step a w with
    | none => simp [hs] at h
    | some w1 =>
      simp only [hs, Option.some_bind] at h
      exact ih w1 w' (step_once_done a w w1 hd hs) h

/-- A returned `Drain` leaves the pool with `once` done, and keeps the facts of
`Inv`. -/
theorem Drain_returned (w w1 : World) (hi : Inv w) (h : Drain w = Call.returned () w1) :
    Inv w1 ∧ w1.pool.once = OnceState.done := by
  unfold Drain at h
  cases ho : w.pool.once with
  | done =>
    simp only [ho] at h
    injection h with _ h2
    subst h2
    exact ⟨hi, ho⟩
  | running => simp [ho] at h
  | fresh =>
    simp only [ho] at h
    by_cases hz : (drainBegin w).pool.wg = 0
    · simp only [hz, if_true] at h
      injection h with _ h2
      subst h2
      have s1 : step Action.drainBegin w = some (drainBegin w) := by simp [step, ho]
      have s2 : step Action.drainFinish (drainBegin w) = some (drainFinish (drainBegin w)) := by
        have : (drainBegin w).pool.once = OnceState.running := rfl
        simp [step, this, hz]
      have i1 := (step_Inv _ _ _ hi s1).1
      exact ⟨(step_Inv _ _ _ i1 s2).1, rfl⟩
    · simp [hz] at h

theorem Acquire_closed (sel : Bool) (w : World) (hc : w.pool.closed = true) :
    Acquire sel w = Call.returned (none, some Err.ErrPoolClosed) w := by
  unfold Acquire
  simp [hc]

/-! ## The sweep on a slice without repetition -/

theorem survivors_sublist (heap : Nat → Connection) (rand : Nat → Bool) (rest : List Nat) :
    ∀ i, (survivors heap rand i rest).Sublist rest := by
  induction rest with
  | nil => intro i; simp [survivors]
  | cons c rest ih =>
    intro i
    unfold survivors
    split_ifs
    · exact (ih (i + 1)).cons₂ c
    · exact (ih (i + 1)).cons c

theorem survivors_open (heap : Nat → Connection) (rand : Nat → Bool) (rest : List Nat) :
    ∀ i, ∀ x ∈ survivors heap rand i rest, (heap x).closed = false := by
  induction rest with
  | nil => intro i x hx; simp [survivors] at hx
  | cons c rest ih =>
    intro i x hx
    unfold survivors at hx
    split_ifs at hx with hp
    · rcases List.mem_cons.mp hx with e | e
      · subst e
        simp only [Connection.IsClosed, Bool.and_eq_true, Bool.not_eq_true'] at hp
        exact hp.2
      · exact ih _ x e
    · exact ih _ x hx

theorem survivors_congr (h1 h2 : Nat → Connection) (rand : Nat → Bool) (rest : List Nat) :
    ∀ i, (∀ x ∈ rest, h1 x = h2 x) → survivors h1 rand i rest = survivors h2 rand i rest := by
  induction rest with
  | nil => intro i _; simp [survivors]
  | cons c rest ih =>
    intro i h
    have hc : h1 c = h2 c := h c (List.mem_cons_self _ _)
    have hr := ih (i + 1) (fun x hx => h x (List.mem_cons_of_mem _ hx))
    unfold survivors
    rw [hc, hr]

theorem survivors_closeAt (heap : Nat → Connection) (rand : Nat → Bool) (rest : List Nat)
    (c : Nat) (hc : c ∉ rest) (i : Nat) :
    survivors (closeAt heap c) rand i rest = survivors heap rand i rest :=
  survivors_congr _ _ rand rest i
    (fun x hx => closeAt_other heap c x (fun e => hc (e ▸ hx)))

/-- On a slice without repetition the loop keeps exactly the survivors. -/
theorem cleanIdleLoop_nodup (rand : Nat → Bool) (rest : List Nat) :
    ∀ (i : Nat) (heap : Nat → Connection) (live : List Nat), rest.Nodup →
      (cleanIdleLoop rand i rest heap live).2 = live ++ survivors heap rand i rest := by
  induction rest with
  | nil => intro i heap live _; simp [cleanIdleLoop, survivors]
  | cons c rest ih =>
    intro i heap live hnd
    obtain ⟨hc, hr⟩ := List.nodup_cons.mp hnd
    unfold cleanIdleLoop survivors
    split_ifs
    · rw [ih _ _ _ hr]; simp
    · rw [ih _ _ _ hr, survivors_closeAt heap rand rest c hc]

/-- On a slice without repetition the loop leaves every survivor untouched. -/
theorem cleanIdleLoop_kept (rand : Nat → Bool) (rest : List Nat) :
    ∀ (i : Nat) (heap : Nat → Connection) (live : List Nat), rest.Nodup →
      ∀ x ∈ survivors heap rand i rest, (cleanIdleLoop rand i rest heap live).1 x = heap x := by
  induction rest with
  | nil => intro i heap live _ x hx; simp [survivors] at hx
  | cons c rest ih =>
    intro i heap live hnd x hx
    obtain ⟨hc, hr⟩ := List.nodup_cons.mp hnd
    unfold survivors at hx
    unfold cleanIdleLoop
    split_ifs at hx ⊢ with hp
    · rcases List.mem_cons.mp hx with e | e
      · subst e
        exact cleanIdleLoop_frame rand rest _ _ _ _ hc
      · exact ih _ _ _ hr x e
    · rw [← survivors_closeAt heap rand rest c hc] at hx
      have hxr : x ∈ rest := (survivors_sublist _ rand rest _).subset hx
      have hxc : x ≠ c := fun e => hc (e ▸ hxr)
      rw [ih _ _ _ hr x hx, closeAt_other heap c x hxc]

/-- On a slice without repetition the loop closes every connection it evicts. -/
theorem cleanIdleLoop_evicted (rand : Nat → Bool) (rest : List Nat) :
    ∀ (i : Nat) (heap : Nat → Connection) (live : List Nat), rest.Nodup →
      ∀ x ∈ rest, x ∉ survivors heap rand i rest →
        ((cleanIdleLoop rand i rest heap live).1 x).closed = true := by
  induction rest with
  | nil => intro i heap live _ x hx; simp at hx
  | cons c rest ih =>
    intro i heap live hnd x hx hns
    obtain ⟨hc, hr⟩ := List.nodup_cons.mp hnd
    unfold survivors at hns
    unfold cleanIdleLoop
    split_ifs at hns ⊢ with hp
    · have hxc : x ≠ c := fun e => hns (by simp [e])
      have hxs : x ∉ survivors heap rand (i + 1) rest := fun e => hns (by simp [e])
      have hxr : x ∈ rest := by
        rcases List.mem_cons.mp hx with e | e
        · exact absurd e hxc
        · exact e
      exact ih _ _ _ hr x hxr hxs
    · rcases List.mem_cons.mp hx with e | e
      · subst e
        exact cleanIdleLoop_mono rand rest _ _ _ _ (closeAt_same heap x)
      · rw [← survivors_closeAt heap rand rest c hc] at hns
        exact ih _ _ _ hr x e hns

theorem cleanIdle_idle_nodup (rand : Nat → Bool) (w : World) (hnd : w.pool.idle.Nodup) :
    (cleanIdle rand w).pool.idle = survivors w.heap rand 0 w.pool.idle := by
  have := cleanIdleLoop_nodup rand w.pool.idle 0 w.heap [] hnd
  simpa [cleanIdle] using this

/-! ## Ownership under the caller contract -/

theorem Owned_start (n : Int) (heap : Nat → Connection) (next : Nat) (ctr : Int) :
    Owned (World.start n heap next ctr) := by
  constructor <;> simp [World.start, NewPool]

theorem step_Owned (a : Action) (w w' : World) (ho : Owned w) (hob : obeys a w = true)
    (h : step a w = some w') : Owned w' := by
  obtain ⟨o1, o2, o3, o4, o5, o6, o7, o8⟩ := ho
  cases a with
  | acquire sel =>
    simp only [step] at h
    cases hq : Acquire sel w with
    | blocked => simp [hq, Call.world?] at h
    | panicked => simp [hq, Call.world?] at h
    | returned r w2 =>
      simp only [hq, Call.world?, Option.some.injEq] at h
      subst h
      rcases Acquire_cases sel w w2 r hq with ⟨_, e, _⟩ | ⟨_, _, hp, c, _, hb, hh⟩
      · subst e; exact ⟨o1, o2, o3, o4, o5, o6, o7, o8⟩
      · have hpi : w2.pool.idle = w.pool.idle.dropLast := by rw [hp]
        have hps : w2.pool.sem = w.pool.sem + 1 := by rw [hp]
        rcases hh with ⟨_, hlast, hheap, hnext⟩ | ⟨hempty, hc, hnext, hheap⟩
        · have hsplit : w.pool.idle.dropLast ++ [c] = w.pool.idle :=
            List.dropLast_append_getLast? c hlast
          have hnd := o1
          rw [← hsplit] at hnd
          obtain ⟨n1, _, n3⟩ := List.nodup_append.mp hnd
          have hcd : c ∉ w.pool.idle.dropLast := fun e => n3 e (List.mem_singleton_self c)
          have hci : c ∈ w.pool.idle := by rw [← hsplit]; simp
          have hdi : ∀ x ∈ w.pool.idle.dropLast, x ∈ w.pool.idle :=
            fun x hx => List.mem_of_mem_dropLast hx
          refine ⟨?_, ?_, ?_, ?_, ?_, ?_, ?_, ?_⟩
          · rw [hpi]; exact n1
          · rw [hb]
            refine List.Nodup.append o2 (List.nodup_singleton c) ?_
            intro x hx hx'
            rw [List.mem_singleton] at hx'
            subst hx'
            exact o3 x hci hx
          · rw [hpi, hb]
            intro x hx hx'
            rcases List.mem_append.mp hx' with e | e
            · exact o3 x (hdi x hx) e
            · rw [List.mem_singleton] at e
              subst e
              exact hcd hx
          · rw [hpi, hheap]
            exact fun x hx => o4 x (hdi x hx)
          · rw [hb, hheap]
            intro x hx
            rcases List.mem_append.mp hx with e | e
            · exact o5 x e
            · rw [List.mem_singleton] at e
              subst e
              exact o4 x hci
          · rw [hpi, hnext]
            exact fun x hx => o6 x (hdi x hx)
          · rw [hb, hnext]
            intro x hx
            rcases List.mem_append.mp hx with e | e
            · exact o7 x e
            · rw [List.mem_singleton] at e
              subst e
              exact o6 x hci
          · rw [hb, hps, List.length_append, List.length_singleton, o8]
        · subst hc
          have hfresh : w.next ∉ w.borrowed := fun e => Nat.lt_irrefl _ (o7 _ e)
          have hpi' : w2.pool.idle = [] := by rw [hpi, hempty]; rfl
          refine ⟨?_, ?_, ?_, ?_, ?_, ?_, ?_, ?_⟩
          · rw [hpi']; exact List.nodup_nil
          · rw [hb]
            refine List.Nodup.append o2 (List.nodup_singleton _) ?_
            intro x hx hx'
            rw [List.mem_singleton] at hx'
            subst hx'
            exact hfresh hx
          · rw [hpi']; intro x hx; simp at hx
          · rw [hpi']; intro x hx; simp at hx
          · rw [hb, hheap]
            intro x hx
            rcases List.mem_append.mp hx with e | e
            · have hne : x ≠ w.next := fun e' => hfresh (e' ▸ e)
              simp only [hne, if_false]
              exact o5 x e
            · rw [List.mem_singleton] at e
              subst e
              simp
          · rw [hpi']; intro x hx; simp at hx
          · rw [hb, hnext]
            intro x hx
            rcases List.mem_append.mp hx with e | e
            · exact Nat.lt_succ_of_lt (o7 x e)
            · rw [List.mem_singleton] at e
              subst e
              exact Nat.lt_succ_self _
          · rw [hb, hps, List.length_append, List.length_singleton, o8]
  | release conn rnd =>
    cases conn with
    | none => simp [obeys] at hob
    | some c =>
      have hcb : c ∈ w.borrowed := by simpa [obeys] using hob
      simp only [step] at h
      cases hq : Release (some c) rnd w with
      | blocked => simp [hq, Call.world?] at h
      | panicked => simp [hq, Call.world?] at h
      | returned r w2 =>
        simp only [hq, Call.world?, Option.some.injEq] at h
        subst h
        obtain ⟨_, _, _, h4, _, _, _, _, _, hnext, _, hb, hh⟩ :=
          Release_cases (some c) rnd w w2 r hq
        have hb' : w2.borrowed = w.borrowed.erase c := hb
        have hci : c ∉ w.pool.idle := fun e => o3 c e hcb
        have herase : ∀ x, x ∈ w.borrowed.erase c ↔ x ≠ c ∧ x ∈ w.borrowed :=
          fun x => List.Nodup.mem_erase_iff o2
        have hlen : (w.borrowed.erase c).length = w.pool.sem - 1 := by
          rw [List.length_erase_of_mem hcb, o8]
        have hidle_heap :
            (w2.pool.idle = w.pool.idle ++ [c] ∧ w2.heap = w.heap ∧ (w.heap c).closed = false) ∨
            (w2.pool.idle = w.pool.idle ∧ (w2.heap = w.heap ∨ w2.heap = closeAt w.heap c)) := by
          rcases hh with ⟨c', e, hcl, _, _, hi, hheap⟩ |
            ⟨hi, ⟨e, _⟩ | ⟨c', e, _, hheap⟩ | ⟨c', e, _, _, hheap⟩⟩
          · cases e; exact Or.inl ⟨hi, hheap, hcl⟩
          · cases e
          · cases e; exact Or.inr ⟨hi, Or.inl hheap⟩
          · cases e; exact Or.inr ⟨hi, Or.inr hheap⟩
        have hbo : ∀ x ∈ w.borrowed.erase c, (w2.heap x).closed = false := by
          intro x hx
          obtain ⟨hxc, hxb⟩ := (herase x).mp hx
          rcases hidle_heap with ⟨_, e, _⟩ | ⟨_, e | e⟩
          · rw [e]; exact o5 x hxb
          · rw [e]; exact o5 x hxb
          · rw [e, closeAt_other _ _ _ hxc]; exact o5 x hxb
        refine ⟨?_, ?_, ?_, ?_, ?_, ?_, ?_, ?_⟩
        · rcases hidle_heap with ⟨e, _, _⟩ | ⟨e, _⟩
          · rw [e]
            refine List.Nodup.append o1 (List.nodup_singleton c) ?_
            intro x hx hx'
            rw [List.mem_singleton] at hx'
            subst hx'
            exact hci hx
          · rw [e]; exact o1
        · rw [hb']; exact o2.erase c
        · rw [hb']
          intro x hx hx'
          obtain ⟨hxc, hxb⟩ := (herase x).mp hx'
          rcases hidle_heap with ⟨e, _, _⟩ | ⟨e, _⟩
          · rw [e] at hx
            rcases List.mem_append.mp hx with e1 | e1
            · exact o3 x e1 hxb
            · exact hxc (List.mem_singleton.mp e1)
          · rw [e] at hx
            exact o3 x hx hxb
        · intro x hx
          rcases hidle_heap with ⟨e, e2, hcl⟩ | ⟨e, e2 | e2⟩
          · rw [e] at hx
            rw [e2]
            rcases List.mem_append.mp hx with e1 | e1
            · exact o4 x e1
            · rw [List.mem_singleton.mp e1]; exact hcl
          · rw [e] at hx; rw [e2]; exact o4 x hx
          · rw [e] at hx
            have hxc : x ≠ c := fun e' => hci (e' ▸ hx)
            rw [e2, closeAt_other _ _ _ hxc]
            exact o4 x hx
        · rw [hb']; exact hbo
        · rw [hnext]
          intro x hx
          rcases hidle_heap with ⟨e, _, _⟩ | ⟨e, _⟩
          · rw [e] at hx
            rcases List.mem_append.mp hx with e1 | e1
            · exact o6 x e1
            · rw [List.mem_singleton.mp e1]; exact o7 c hcb
          · rw [e] at hx; exact o6 x hx
        · rw [hb', hnext]
          intro x hx
          exact o7 x ((herase x).mp hx).2
        · rw [hb', h4]; exact hlen
  | sweep rand =>
    simp only [step, Option.some.injEq] at h
    subst h
    have hi := cleanIdle_idle_nodup rand w o1
    have hsub : (survivors w.heap rand 0 w.pool.idle).Sublist w.pool.idle :=
      survivors_sublist _ _ _ _
    refine ⟨?_, o2, ?_, ?_, ?_, ?_, o7, o8⟩
    · rw [hi]; exact o1.sublist hsub
    · rw [hi]; exact fun x hx => o3 x (hsub.subset hx)
    · rw [hi]
      intro x hx
      have hk := cleanIdleLoop_kept rand w.pool.idle 0 w.heap [] o1 x hx
      have hop := survivors_open w.heap rand w.pool.idle 0 x hx
      show ((cleanIdleLoop rand 0 w.pool.idle w.heap []).1 x).closed = false
      rw [hk]; exact hop
    · intro x hx
      have hxi : x ∉ w.pool.idle := fun e => o3 x e hx
      show ((cleanIdleLoop rand 0 w.pool.idle w.heap []).1 x).closed = false
      rw [cleanIdleLoop_frame rand _ _ _ _ _ hxi]
      exact o5 x hx
    · rw [hi]; exact fun x hx => o6 x (hsub.subset hx)
  | drainBegin =>
    simp only [step] at h
    by_cases hf : w.pool.once = OnceState.fresh
    · simp only [hf, if_true, Option.some.injEq] at h
      subst h
      exact ⟨o1, o2, o3, o4, o5, o6, o7, o8⟩
    · simp [hf] at h
  | drainFinish =>
    simp only [step] at h
    by_cases hf : w.pool.once = OnceState.running ∧ w.pool.wg = 0
    · simp only [hf, and_self, if_true, Option.some.injEq] at h
      subst h
      refine ⟨List.nodup_nil, o2, ?_, ?_, ?_, ?_, o7, o8⟩
      · intro x hx; simp [drainFinish] at hx
      · intro x hx; simp [drainFinish] at hx
      · intro x hx
        have hxi : x ∉ w.pool.idle := fun e => o3 x e hx
        show (closeAll w.pool.idle w.heap x).closed = false
        rw [closeAll_frame _ _ _ hxi]
        exact o5 x hx
      · intro x hx; simp [drainFinish] at hx
    · simp [hf] at h
  | callerClose c => simp [obeys] at hob

theorem runContract_run (acts : List Action) :
    ∀ (w w' : World), runContract acts w = some w' → run acts w = some w' := by
  induction acts with
  | nil => intro w w' h; simpa [runContract, run] using h
  | cons a rest ih =>
    intro w w' h
    simp only [runContract] at h
    by_cases hob : obeys a w = true
    · simp only [hob, if_true] at h
      simp only [run]
      cases hs : step a w with
      | none => simp [hs] at h
      | some w1 =>
        simp only [hs, Option.some_bind] at h ⊢
        exact ih w1 w' h
    · simp [hob] at h

theorem runContract_Owned (acts : List Action) :
    ∀ (w w' : World), Owned w → runContract acts w = some w' → Owned w' := by
  induction acts with
  | nil =>
    intro w w' ho h
    simp only [runContract, Option.some.injEq] at h
    subst h; exact ho
  | cons a rest ih =>
    intro w w' ho h
    simp only [runContract] at h
    by_cases hob : obeys a w = true
    · simp only [hob, if_true] at h
      cases hs : step a w with
      | none => simp [hs] at h
      | some w1 =>
        simp only [hs, Option.some_bind] at h
        exact ih w1 w' (step_Owned a w w1 ho hob hs) h
    · simp [hob] at h

/-- A connection lent to a caller stays lent through every step other than its own
release. -/
theorem step_borrowed_stays (a : Action) (w w' : World) (c : Nat) (hc : c ∈ w.borrowed)
    (hn : ∀ rnd, a ≠ Action.release (some c) rnd) (h : step a w = some w') :
    c ∈ w'.borrowed := by
  cases a with
  | acquire sel =>
    simp only [step] at h
    cases hq : Acquire sel w with
    | blocked => simp [hq, Call.world?] at h
    | panicked => simp [hq, Call.world?] at h
    | returned r w2 =>
      simp only [hq, Call.world?, Option.some.injEq] at h
      subst h
      rcases Acquire_cases sel w w2 r hq with ⟨_, e, _⟩ | ⟨_, _, _, c', _, hb, _⟩
      · subst e; exact hc
      · rw [hb]; exact List.mem_append_left _ hc
  | release conn rnd =>
    simp only [step] at h
    cases hq : Release conn rnd w with
    | blocked => simp [hq, Call.world?] at h
    | panicked => simp [hq, Call.world?] at h
    | returned r w2 =>
      simp only [hq, Call.world?, Option.some.injEq] at h
      subst h
      obtain ⟨_, _, _, _, _, _, _, _, _, _, _, hb, _⟩ := Release_cases conn rnd w w2 r hq
      rw [hb]
      cases conn with
      | none => exact hc
      | some c' =>
        have hne : c ≠ c' := fun e => hn rnd (by rw [e])
        exact (List.mem_erase_of_ne hne).mpr hc
  | sweep rand =>
    simp only [step, Option.some.injEq] at h
    subst h; exact hc
  | drainBegin =>
    simp only [step] at h
    by_cases hf : w.pool.once = OnceState.fresh
    · simp only [hf, if_true, Option.some.injEq] at h
      subst h; exact hc
    · simp [hf] at h
  | drainFinish =>
    simp only [step] at h
    by_cases hf : w.pool.once = OnceState.running ∧ w.pool.wg = 0
    · simp only [hf, and_self, if_true, Option.some.injEq] at h
      subst h; exact hc
    · simp [hf] at h
  | callerClose c' =>
    simp only [step, Option.some.injEq] at h
    subst h; exact hc

/-- While the pool is draining, a run of releases under the caller contract leaves
the idle slice as it is, keeps the pool waiting, and closes every connection
that is handed back. -/
theorem drain_releases (rels : List Action) :
    ∀ (w1 w2 : World), Owned w1 → w1.pool.closed = true →
      (∀ a ∈ rels, ∃ c rnd, a = Action.release (some c) rnd) →
      runContract rels w1 = some w2 →
        w2.pool.idle = w1.pool.idle ∧ w2.pool.closed = true ∧
        w2.pool.once = w1.pool.once ∧ Owned w2 ∧
        (∀ x, (w1.heap x).closed = true → (w2.heap x).closed = true) ∧
        (∀ c ∈ w1.borrowed, c ∉ w2.borrowed → (w2.heap c).closed = true) := by
  induction rels with
  | nil =>
    intro w1 w2 ho hcl _ h
    simp only [runContract, Option.some.injEq] at h
    subst h
    exact ⟨rfl, hcl, rfl, ho, fun _ hx => hx, fun c hc hn => absurd hc hn⟩
  | cons a rest ih =>
    intro w1 w2 ho hcl hall h
    obtain ⟨c, rnd, ea⟩ := hall a (List.mem_cons_self _ _)
    subst ea
    simp only [runContract] at h
    by_cases hob : obeys (Action.release (some c) rnd) w1 = true
    · simp only [hob, if_true] at h
      cases hs : step (Action.release (some c) rnd) w1 with
      | none => simp [hs] at h
      | some wm =>
        simp only [hs, Option.some_bind] at h
        have hom := step_Owned _ _ _ ho hob hs
        have hrel : Release (some c) rnd w1 = Call.returned none wm ∨
            ∃ r, Release (some c) rnd w1 = Call.returned r wm := by
          simp only [step] at hs
          cases hq : Release (some c) rnd w1 with
          | blocked => simp [hq, Call.world?] at hs
          | panicked => simp [hq, Call.world?] at hs
          | returned r w3 =>
            simp only [hq, Call.world?, Option.some.injEq] at hs
            subst hs
            exact Or.inr ⟨r, rfl⟩
        have hrel' : ∃ r, Release (some c) rnd w1 = Call.returned r wm := by
          rcases hrel with e | e
          · exact ⟨none, e⟩
          · exact e
        obtain ⟨r, hq⟩ := hrel'
        obtain ⟨_, _, _, _, _, _, h7, _, h9, _, _, hb, hcase⟩ :=
          Release_cases _ _ _ _ _ hq
        have hmid : wm.pool.idle = w1.pool.idle ∧ (wm.heap c).closed = true ∧
            ∀ x, (w1.heap x).closed = true → (wm.heap x).closed = true := by
          rcases hcase with ⟨_, _, _, _, hpc, _, _⟩ |
            ⟨hi, ⟨e, _⟩ | ⟨c', e, hcl', hheap⟩ | ⟨c', e, _, _, hheap⟩⟩
          · rw [hcl] at hpc; cases hpc
          · cases e
          · cases e
            exact ⟨hi, by rw [hheap]; exact hcl', fun x hx => by rw [hheap]; exact hx⟩
          · cases e
            exact ⟨hi, by rw [hheap]; exact closeAt_same _ _,
              fun x hx => by rw [hheap]; exact closeAt_mono _ _ _ hx⟩
        obtain ⟨m1, m2, m3⟩ := hmid
        obtain ⟨k1, k2, k3, k4, k5, k6⟩ := ih wm w2 hom (by rw [h7]; exact hcl)
          (fun b hb' => hall b (List.mem_cons_of_mem _ hb')) h
        refine ⟨k1.trans m1, k2, k3.trans h9, k4, fun x hx => k5 x (m3 x hx), ?_⟩
        intro c0 hc0 hn0
        by_cases hmem : c0 ∈ wm.borrowed
        · exact k6 c0 hmem hn0
        · have hb' : wm.borrowed = w1.borrowed.erase c := hb
          have : c0 = c := by
            by_contra hne
            exact hmem (by rw [hb']; exact (List.mem_erase_of_ne hne).mpr hc0)
          subst this
          exact k5 c0 m2
    · simp [hob] at h

/-! ## The claims -/

/-- C1: in every state reachable from `NewPool(n)` by Acquire, Release, sweep and
Drain steps (and callers closing connections), the number of tickets held is at
most the capacity, and it equals the number of outstanding borrows. With
capacity 2 and no Release: the first two Acquire calls succeed, the third does
not complete, no Acquire succeeds in any state reached without a Release, and
after a Release the next Acquire succeeds. -/
theorem C1_tickets_at_most_capacity (heap : Nat → Connection) (next : Nat) (ctr : Int) :
    (∀ (n : Int) (acts : List Action) (w : World),
      run acts (World.start n heap next ctr) = some w →
        w.pool.maxConns = (NewPool n).maxConns ∧ w.pool.sem ≤ w.pool.maxConns ∧
        w.pool.wg = w.pool.sem) ∧
    (∀ s1 s2 s3 : Bool, ∃ c1 c2 w1 w2,
      Acquire s1 (World.start 2 heap next ctr) = Call.returned (some c1, none) w1 ∧
      Acquire s2 w1 = Call.returned (some c2, none) w2 ∧
      Acquire s3 w2 = Call.blocked ∧
      (∀ (acts : List Action) (w3 : World),
        (∀ a ∈ acts, ∀ conn rnd, a ≠ Action.release conn rnd) → run acts w2 = some w3 →
          ∀ sel r w4, Acquire sel w3 = Call.returned r w4 →
            r = (none, some Err.ErrPoolClosed)) ∧
      (∀ conn rnd w5, Release conn rnd w2 = Call.returned none w5 →
        ∀ sel, ∃ c3 w6, Acquire sel w5 = Call.returned (some c3, none) w6)) := by
  constructor
  · intro n acts w h
    obtain ⟨hi, hm⟩ := run_Inv acts _ _ (Inv_start n heap next ctr) h
    have := hi.live_le
    exact ⟨hm, by omega, hi.wg_sem⟩
  · intro s1 s2 s3
    have i0 := Inv_start 2 heap next ctr
    obtain ⟨c1, w1, a1⟩ := Acquire_lends s1 (World.start 2 heap next ctr) rfl rfl
      (by simp [World.start, NewPool])
    have st1 : step (Action.acquire s1) (World.start 2 heap next ctr) = some w1 := by
      simp [step, a1, Call.world?]
    obtain ⟨i1, m1⟩ := step_Inv _ _ _ i0 st1
    have p1 : w1.pool.closed = false ∧ w1.pool.sem = 1 := by
      rcases Acquire_cases _ _ _ _ a1 with ⟨e, _⟩ | ⟨_, _, hp, _⟩
      · cases e
      · rw [hp]; exact ⟨rfl, rfl⟩
    have mx1 : w1.pool.maxConns = 2 := by rw [m1]; rfl
    obtain ⟨c2, w2, a2⟩ := Acquire_lends s2 w1 p1.1 (by rw [i1.latch]; exact p1.1)
      (by rw [p1.2, mx1]; decide)
    have st2 : step (Action.acquire s2) w1 = some w2 := by
      simp [step, a2, Call.world?]
    obtain ⟨i2, m2⟩ := step_Inv _ _ _ i1 st2
    have p2 : w2.pool.closed = false ∧ w2.pool.sem = 2 := by
      rcases Acquire_cases _ _ _ _ a2 with ⟨e, _⟩ | ⟨_, _, hp, _⟩
      · cases e
      · rw [hp]; exact ⟨p1.1, by simp [p1.2]⟩
    have mx2 : w2.pool.maxConns = 2 := by rw [m2]; exact mx1
    refine ⟨c1, c2, w1, w2, a1, a2, ?_, ?_, ?_⟩
    · have hsh : w2.pool.shutdownCh = false := by rw [i2.latch]; exact p2.1
      unfold Acquire
      simp [p2.1, p2.2, mx2, hsh]
    · intro acts w3 hn hrun sel r w4 hacq
      obtain ⟨i3, m3⟩ := run_Inv acts _ _ i2 hrun
      have hmono := run_sem_mono acts _ _ hn hrun
      have hle := i3.live_le
      rcases Acquire_cases _ _ _ _ hacq with ⟨e, _⟩ | ⟨_, hs, _⟩
      · exact e
      · rw [m3, mx2] at hs
        rw [p2.2] at hmono
        omega
    · intro conn rnd w5 hrel sel
      have st3 : step (Action.release conn rnd) w2 = some w5 := by
        simp [step, hrel, Call.world?]
      obtain ⟨i5, m5⟩ := step_Inv _ _ _ i2 st3
      obtain ⟨_, _, _, h4, _, _, h7, _⟩ := Release_cases _ _ _ _ _ hrel
      have hc5 : w5.pool.closed = false := by rw [h7]; exact p2.1
      exact Acquire_lends sel w5 hc5 (by rw [i5.latch]; exact hc5)
        (by rw [h4, m5, mx2, p2.2]; decide)

/-- C1, on a concrete run: two Acquire calls on a pool of capacity 2. -/
theorem C1_tickets_at_most_capacity_witness :
    ∃ w, run [Action.acquire true, Action.acquire true] (World.start 2 zeroHeap 0 0) = some w ∧
      w.pool.maxConns = 2 ∧ w.pool.sem ≤ w.pool.maxConns ∧ w.pool.wg = w.pool.sem :=
  ⟨_, rfl, (C1_tickets_at_most_capacity zeroHeap 0 0).1 2
    [Action.acquire true, Action.acquire true] _ rfl⟩

/-- C2: once a call of `Drain` has returned on a pool built by `NewPool` (the call
that drained the pool, or any later call, which returns only when `once` is
done), then in every later state `IdleCount` is 0 and `Acquire` fails with
`ErrPoolClosed`, returns no connection and leaves the state, hence the
tickets, untouched. -/
theorem C2_after_drain (n : Int) (heap : Nat → Connection) (next : Nat) (ctr : Int)
    (before after : List Action) (w w1 w2 : World)
    (h1 : run before (World.start n heap next ctr) = some w)
    (hd : Drain w = Call.returned () w1)
    (h2 : run after w1 = some w2) :
    IdleCount w2 = 0 ∧
    ∀ sel, Acquire sel w2 = Call.returned (none, some Err.ErrPoolClosed) w2 := by
  obtain ⟨i0, _⟩ := run_Inv before _ _ (Inv_start n heap next ctr) h1
  obtain ⟨i1, d1⟩ := Drain_returned w w1 i0 hd
  obtain ⟨i2, _⟩ := run_Inv after _ _ i1 h2
  have d2 := run_once_done after _ _ d1 h2
  have hidle : w2.pool.idle = [] := i2.done_empty d2
  have hcl : w2.pool.closed = true := by
    cases hc : w2.pool.closed with
    | true => rfl
    | false =>
      have := i2.fresh_open.mpr hc
      rw [d2] at this
      cases this
  exact ⟨by simp [IdleCount, hidle], fun sel => Acquire_closed sel w2 hcl⟩

/-- C2, on a concrete run: two connections are borrowed and given back, `Drain`
returns, and an Acquire attempt and a sweep follow. -/
theorem C2_after_drain_witness :
    ∃ w w1 w2,
      run [Action.acquire true, Action.acquire true, Action.release (some 0) true,
        Action.release (some 1) true] (World.start 2 zeroHeap 0 0) = some w ∧
      Drain w = Call.returned () w1 ∧
      run [Action.acquire true, Action.sweep (fun _ => true)] w1 = some w2 ∧
      IdleCount w2 = 0 ∧
      ∀ sel, Acquire sel w2 = Call.returned (none, some Err.ErrPoolClosed) w2 :=
  ⟨_, _, _, rfl, rfl, rfl,
    C2_after_drain 2 zeroHeap 0 0
      [Action.acquire true, Action.acquire true, Action.release (some 0) true,
        Action.release (some 1) true]
      [Action.acquire true, Action.sweep (fun _ => true)] _ _ _ rfl rfl rfl⟩

/-- C3: in every reachable state in which a ticket is held, `Release` completes for
every argument (nil or any connection, closed or open, healthy or not, pool
draining or not), returns nil, gives back exactly one ticket and lowers the
count of outstanding borrows by exactly one. -/
theorem C3_release_gives_back_one_ticket (n : Int) (heap : Nat → Connection) (next : Nat)
    (ctr : Int) (acts : List Action) (w : World) (conn : Option Nat) (rnd : Bool)
    (h : run acts (World.start n heap next ctr) = some w) (ht : 0 < w.pool.sem) :
    ∃ w', Release conn rnd w = Call.returned none w' ∧
      w'.pool.sem + 1 = w.pool.sem ∧ w'.pool.wg + 1 = w.pool.wg ∧
      w'.pool.maxConns = w.pool.maxConns := by
  obtain ⟨hi, _⟩ := run_Inv acts _ _ (Inv_start n heap next ctr) h
  have hwg : 0 < w.pool.wg := by rw [hi.wg_sem]; exact ht
  obtain ⟨w', hr⟩ := Release_ok conn rnd w ht hwg
  obtain ⟨_, _, _, h4, h5, h6, _⟩ := Release_cases _ _ _ _ _ hr
  exact ⟨w', hr, by omega, by omega, h6⟩

/-- C3, on a concrete run: a nil release while one connection is borrowed. -/
theorem C3_release_gives_back_one_ticket_witness :
    ∃ w w', run [Action.acquire true] (World.start 3 zeroHeap 0 0) = some w ∧
      0 < w.pool.sem ∧ Release none false w = Call.returned none w' ∧
      w'.pool.sem + 1 = w.pool.sem ∧ w'.pool.wg + 1 = w.pool.wg ∧
      w'.pool.maxConns = w.pool.maxConns := by
  have hrun : run [Action.acquire true] (World.start 3 zeroHeap 0 0) = some _ := rfl
  have hpos : 0 < (1 : Nat) := Nat.one_pos
  obtain ⟨w', hw⟩ := C3_release_gives_back_one_ticket 3 zeroHeap 0 0 [Action.acquire true] _
    none false hrun hpos
  exact ⟨_, w', hrun, hpos, hw⟩

/-- C6, as stated, fails: after one Acquire and the Release of the healthy
connection on a pool of capacity 2 nothing is borrowed, one connection is idle
and both tickets are available, so the sum is 3. -/
theorem C6_counterexample :
    ∃ w, run [Action.acquire true, Action.release (some 0) true]
        (World.start 2 zeroHeap 0 0) = some w ∧
      w.pool.maxConns = 2 ∧ w.pool.wg = 0 ∧ w.pool.idle.length = 1 ∧
      w.pool.maxConns - w.pool.sem = 2 ∧
      w.pool.wg + w.pool.idle.length + (w.pool.maxConns - w.pool.sem) ≠ w.pool.maxConns :=
  ⟨_, rfl, rfl, rfl, rfl, rfl, by decide⟩

/-- C6, amended: at every quiescent point of a pool of capacity n the outstanding
borrows and the available tickets add up to n, and the idle connections are
not part of that sum: they number at most the available tickets. -/
theorem C6_accounting (n : Int) (heap : Nat → Connection) (next : Nat) (ctr : Int)
    (acts : List Action) (w : World)
    (h : run acts (World.start n heap next ctr) = some w) :
    w.pool.maxConns = (NewPool n).maxConns ∧
    w.pool.wg + (w.pool.maxConns - w.pool.sem) = w.pool.maxConns ∧
    w.pool.idle.length ≤ w.pool.maxConns - w.pool.sem := by
  obtain ⟨hi, hm⟩ := run_Inv acts _ _ (Inv_start n heap next ctr) h
  have h1 := hi.live_le
  have h2 := hi.wg_sem
  exact ⟨hm, by omega, by omega⟩

/-- C6 amended, on the run of the counterexample. -/
theorem C6_accounting_witness :
    ∃ w, run [Action.acquire true, Action.release (some 0) true]
        (World.start 2 zeroHeap 0 0) = some w ∧
      w.pool.maxConns = 2 ∧
      w.pool.wg + (w.pool.maxConns - w.pool.sem) = w.pool.maxConns ∧
      w.pool.idle.length ≤ w.pool.maxConns - w.pool.sem :=
  ⟨_, rfl, C6_accounting 2 zeroHeap 0 0
    [Action.acquire true, Action.release (some 0) true] _ rfl⟩

theorem Close_of_closed (c : Connection) (h : c.closed = true) :
    c.Close = (c, some Err.alreadyClosed) := by
  simp [Connection.Close, h]

theorem iterate_Close_closed (k : Nat) (c : Connection) :
    ((fun d : Connection => d.Close.1)^[k + 1] c).closed = true := by
  rw [Function.iterate_succ_apply']
  exact Close_closed _

/-- A step never reopens a connection object that exists. -/
theorem step_closed_mono (a : Action) (w w' : World) (x : Nat) (hx : x < w.next)
    (hc : (w.heap x).closed = true) (h : step a w = some w') :
    (w'.heap x).closed = true := by
  cases a with
  | acquire sel =>
    simp only [step] at h
    cases hq : Acquire sel w with
    | blocked => simp [hq, Call.world?] at h
    | panicked => simp [hq, Call.world?] at h
    | returned r w2 =>
      simp only [hq, Call.world?, Option.some.injEq] at h
      subst h
      rcases Acquire_cases sel w w2 r hq with ⟨_, e, _⟩ | ⟨_, _, _, c, _, _, hh⟩
      · subst e; exact hc
      · rcases hh with ⟨_, _, e, _⟩ | ⟨_, _, _, e⟩
        · rw [e]; exact hc
        · rw [e]
          simp only [Nat.ne_of_lt hx, if_false]
          exact hc
  | release conn rnd =>
    simp only [step] at h
    cases hq : Release conn rnd w with
    | blocked => simp [hq, Call.world?] at h
    | panicked => simp [hq, Call.world?] at h
    | returned r w2 =>
      simp only [hq, Call.world?, Option.some.injEq] at h
      subst h
      obtain ⟨_, _, _, _, _, _, _, _, _, _, _, _, hh⟩ := Release_cases conn rnd w w2 r hq
      rcases hh with ⟨_, _, _, _, _, _, e⟩ | ⟨_, ⟨_, e⟩ | ⟨_, _, _, e⟩ | ⟨c, _, _, _, e⟩⟩
      · rw [e]; exact hc
      · rw [e]; exact hc
      · rw [e]; exact hc
      · rw [e]; exact closeAt_mono _ _ _ hc
  | sweep rand =>
    simp only [step, Option.some.injEq] at h
    subst h
    exact cleanIdleLoop_mono rand _ _ _ _ _ hc
  | drainBegin =>
    simp only [step] at h
    by_cases hf : w.pool.once = OnceState.fresh
    · simp only [hf, if_true, Option.some.injEq] at h
      subst h; exact hc
    · simp [hf] at h
  | drainFinish =>
    simp only [step] at h
    by_cases hf : w.pool.once = OnceState.running ∧ w.pool.wg = 0
    · simp only [hf, and_self, if_true, Option.some.injEq] at h
      subst h
      exact closeAll_mono _ _ _ hc
    · simp [hf] at h
  | callerClose c =>
    simp only [step, Option.some.injEq] at h
    subst h
    exact closeAt_mono _ _ _ hc

/-- C7: on an open connection `Close` returns nil and sets the flag; on a closed
one it returns the already-closed error and leaves it closed, so every
`Close` after the first fails; a connection made by `newConnection` starts
open; no method and no step of the pool takes the flag of an existing
connection back to false; on a closed connection `HealthCheck` is false
whatever the random draw and `DoWork` fails with the closed-connection
error. -/
theorem C7_close_once (c : Connection) :
    (c.closed = false → c.Close = ({ c with closed := true }, none)) ∧
    (c.closed = true → c.Close = (c, some Err.alreadyClosed)) ∧
    (∀ k : Nat,
      ((fun d : Connection => d.Close.1)^[k + 1] c).Close.2 = some Err.alreadyClosed ∧
      ((fun d : Connection => d.Close.1)^[k + 1] c).Close.1.closed = true) ∧
    (∀ w : World, ((newConnection w).2.heap (newConnection w).1).closed = false) ∧
    (∀ (a : Action) (w w' : World) (x : Nat), x < w.next → (w.heap x).closed = true →
      step a w = some w' → (w'.heap x).closed = true) ∧
    (c.closed = true → ∀ rnd, c.HealthCheck rnd = false) ∧
    (c.closed = true → c.DoWork = some Err.closedConnection) := by
  refine ⟨?_, ?_, ?_, ?_, ?_, ?_, ?_⟩
  · intro h; simp [Connection.Close, h]
  · intro h; simp [Connection.Close, h]
  · intro k
    have hk := iterate_Close_closed k c
    constructor
    · rw [Close_of_closed _ hk]
    · exact Close_closed _
  · intro w; simp [newConnection]
  · intro a w w' x hx hc h
    exact step_closed_mono a w w' x hx hc h
  · intro h rnd; simp [Connection.HealthCheck, Connection.IsClosed, h]
  · intro h; simp [Connection.DoWork, Connection.IsClosed, h]

/-- C7, on the zero value `Connection{}` and on it after one `Close`. -/
theorem C7_close_once_witness :
    (Connection.mk 0 false).Close = (Connection.mk 0 true, none) ∧
    (Connection.mk 0 true).Close = (Connection.mk 0 true, some Err.alreadyClosed) ∧
    (Connection.mk 0 true).HealthCheck true = false ∧
    (Connection.mk 0 true).DoWork = some Err.closedConnection :=
  ⟨(C7_close_once (Connection.mk 0 false)).1 rfl,
   (C7_close_once (Connection.mk 0 true)).2.1 rfl,
   (C7_close_once (Connection.mk 0 true)).2.2.2.2.2.1 rfl true,
   (C7_close_once (Connection.mk 0 true)).2.2.2.2.2.2 rfl⟩

/-- C4: a `Release` that holds a ticket completes, and it changes the idle slice in
exactly one case: the argument is a connection that is not closed, passes its
health check, and the pool is not draining; then the connection is appended at
the end of the idle slice and is still open. In every other case the idle
slice is unchanged, and a connection that failed the health check, or was
healthy while the pool was draining, is closed when `Release` returns. -/
theorem C4_release_idle (w : World) (conn : Option Nat) (rnd : Bool)
    (ht : 0 < w.pool.sem) (hwg : 0 < w.pool.wg) :
    ∃ w', Release conn rnd w = Call.returned none w' ∧
      (∀ c, conn = some c → (w.heap c).IsClosed = false →
        (w.heap c).HealthCheck rnd = true → w.pool.closed = false →
          w'.pool.idle = w.pool.idle ++ [c] ∧ (w'.heap c).closed = false) ∧
      (¬ (∃ c, conn = some c ∧ (w.heap c).IsClosed = false ∧
          (w.heap c).HealthCheck rnd = true ∧ w.pool.closed = false) →
        w'.pool.idle = w.pool.idle) ∧
      (∀ c, conn = some c →
        ((w.heap c).HealthCheck rnd = false ∨
          ((w.heap c).HealthCheck rnd = true ∧ w.pool.closed = true)) →
        (w'.heap c).closed = true) := by
  obtain ⟨w', hr⟩ := Release_ok conn rnd w ht hwg
  obtain ⟨_, _, _, _, _, _, _, _, _, _, _, _, hh⟩ := Release_cases _ _ _ _ _ hr
  refine ⟨w', hr, ?_, ?_, ?_⟩
  · intro c hc hcl hhc hpc
    rcases hh with ⟨c', e, hcl', _, _, hi, hheap⟩ |
      ⟨_, ⟨e, _⟩ | ⟨c', e, hcl', _⟩ | ⟨c', e, hcl', hor, _⟩⟩
    · rw [hc] at e; cases e
      exact ⟨hi, by rw [hheap]; exact hcl'⟩
    · rw [hc] at e; cases e
    · rw [hc] at e; cases e
      simp [Connection.IsClosed, hcl'] at hcl
    · rw [hc] at e; cases e
      rcases hor with e1 | e1
      · subst e1
        simp [Connection.HealthCheck, Connection.IsClosed, hcl'] at hhc
      · rw [e1] at hpc; cases hpc
  · intro hno
    rcases hh with ⟨c', e, hcl', hr', hpc, _, _⟩ | ⟨hi, _⟩
    · exact absurd ⟨c', e, by simp [Connection.IsClosed, hcl'],
        by simp [Connection.HealthCheck, Connection.IsClosed, hcl', hr'], hpc⟩ hno
    · exact hi
  · intro c hc hor
    rcases hh with ⟨c', e, hcl', hr', hpc, _, _⟩ |
      ⟨_, ⟨e, _⟩ | ⟨c', e, hcl', hheap⟩ | ⟨c', e, _, _, hheap⟩⟩
    · rw [hc] at e; cases e
      rcases hor with e1 | ⟨_, e1⟩
      · simp [Connection.HealthCheck, Connection.IsClosed, hcl', hr'] at e1
      · rw [e1] at hpc; cases hpc
    · rw [hc] at e; cases e
    · rw [hc] at e; cases e
      rw [hheap]; exact hcl'
    · rw [hc] at e; cases e
      rw [hheap]; exact closeAt_same _ _

/-- C4, on a concrete state: one connection is borrowed from a pool of capacity 2
and released healthy. -/
theorem C4_release_idle_witness :
    run [Action.acquire true] (World.start 2 zeroHeap 0 0) = some oneBorrowed ∧
    ∃ w', Release (some 0) true oneBorrowed = Call.returned none w' ∧
      w'.pool.idle = oneBorrowed.pool.idle ++ [0] ∧ (w'.heap 0).closed = false := by
  refine ⟨rfl, ?_⟩
  obtain ⟨w', hr, happ, _, _⟩ := C4_release_idle oneBorrowed (some 0) true
    (Nat.one_pos : 0 < (1 : Nat)) (Nat.one_pos : 0 < (1 : Nat))
  exact ⟨w', hr, happ 0 rfl rfl rfl rfl⟩

/-- C5: in a reachable state of a pool that is not draining, with a ticket held,
releasing a connection whose health check passes (so it is open) and then
calling `Acquire` returns that same connection with no error, and the idle
slice is again what it was before the release. More generally, on an open pool
with a free ticket and a non-empty idle slice, `Acquire` returns the last
element of the slice, removes that element only, and makes no new
connection. -/
theorem C5_lifo_round_trip (n : Int) (heap : Nat → Connection) (next : Nat) (ctr : Int)
    (acts : List Action) (w : World) (c : Nat) (rnd sel : Bool)
    (h : run acts (World.start n heap next ctr) = some w)
    (hopen : w.pool.closed = false) (ht : 0 < w.pool.sem)
    (hh : (w.heap c).HealthCheck rnd = true) :
    (∃ w1 w2, Release (some c) rnd w = Call.returned none w1 ∧
      Acquire sel w1 = Call.returned (some c, none) w2 ∧
      w2.pool.idle = w.pool.idle) ∧
    (∀ (v : World) (hne : v.pool.idle ≠ []), v.pool.closed = false →
      v.pool.shutdownCh = false → v.pool.sem < v.pool.maxConns →
      ∃ v', Acquire sel v = Call.returned (some (v.pool.idle.getLast hne), none) v' ∧
        v'.pool.idle = v.pool.idle.dropLast ∧
        v'.pool.idle ++ [v.pool.idle.getLast hne] = v.pool.idle ∧
        v'.heap = v.heap ∧ v'.next = v.next) := by
  have general : ∀ (v : World) (hne : v.pool.idle ≠ []), v.pool.closed = false →
      v.pool.shutdownCh = false → v.pool.sem < v.pool.maxConns →
      ∃ v', Acquire sel v = Call.returned (some (v.pool.idle.getLast hne), none) v' ∧
        v'.pool.idle = v.pool.idle.dropLast ∧
        v'.pool.idle ++ [v.pool.idle.getLast hne] = v.pool.idle ∧
        v'.heap = v.heap ∧ v'.next = v.next := by
    intro v hne hvc hvs hvt
    obtain ⟨c', v', ha⟩ := Acquire_lends sel v hvc hvs hvt
    rcases Acquire_cases _ _ _ _ ha with ⟨e, _⟩ | ⟨_, _, hp, c2, e, _, hcase⟩
    · cases e
    · cases e
      rcases hcase with ⟨_, hlast, hheap, hnext⟩ | ⟨hempty, _⟩
      · rw [List.getLast?_eq_getLast _ hne] at hlast
        cases hlast
        have hpi : v'.pool.idle = v.pool.idle.dropLast := by rw [hp]
        exact ⟨v', ha, hpi, by rw [hpi]; exact List.dropLast_append_getLast hne, hheap, hnext⟩
      · exact absurd hempty hne
  refine ⟨?_, general⟩
  obtain ⟨hi, _⟩ := run_Inv acts _ _ (Inv_start n heap next ctr) h
  have hwg : 0 < w.pool.wg := by rw [hi.wg_sem]; exact ht
  have hcl : (w.heap c).closed = false := by
    cases hc : (w.heap c).closed with
    | false => rfl
    | true => simp [Connection.HealthCheck, Connection.IsClosed, hc] at hh
  have hr : rnd = true := by
    simpa [Connection.HealthCheck, Connection.IsClosed, hcl] using hh
  obtain ⟨w1, hrel⟩ := Release_ok (some c) rnd w ht hwg
  obtain ⟨_, _, _, h4, _, h6, h7, h8, _, _, _, _, hcase⟩ := Release_cases _ _ _ _ _ hrel
  have hidle : w1.pool.idle = w.pool.idle ++ [c] := by
    rcases hcase with ⟨c', e, _, _, _, hi', _⟩ |
      ⟨_, ⟨e, _⟩ | ⟨c', e, hcl', _⟩ | ⟨c', e, _, hor, _⟩⟩
    · cases e; exact hi'
    · cases e
    · cases e; rw [hcl] at hcl'; cases hcl'
    · cases e
      rcases hor with e1 | e1
      · rw [hr] at e1; cases e1
      · rw [hopen] at e1; cases e1
  have hne : w1.pool.idle ≠ [] := by rw [hidle]; simp
  have hlive := hi.live_le
  obtain ⟨w2, ha, hpi, _, _, _⟩ := general w1 hne (by rw [h7]; exact hopen)
    (by rw [h8, hi.latch]; exact hopen) (by rw [h4, h6]; omega)
  have hlast : w1.pool.idle.getLast hne = c := by
    simp only [hidle, List.getLast_append_singleton]
  rw [hlast] at ha
  exact ⟨w1, w2, hrel, ha, by rw [hpi, hidle, List.dropLast_concat]⟩

/-- C5, on a concrete state: connection 1 is released while connection 0 is idle and
connection 2 is still borrowed. -/
theorem C5_lifo_round_trip_witness :
    ∃ w w1 w2,
      run [Action.acquire true, Action.acquire true, Action.acquire true,
        Action.release (some 0) true] (World.start 3 zeroHeap 0 0) = some w ∧
      w.pool.idle = [0] ∧
      Release (some 1) true w = Call.returned none w1 ∧
      Acquire true w1 = Call.returned (some 1, none) w2 ∧
      w2.pool.idle = w.pool.idle := by
  have hrun : run [Action.acquire true, Action.acquire true, Action.acquire true,
      Action.release (some 0) true] (World.start 3 zeroHeap 0 0) = some _ := rfl
  obtain ⟨w1, w2, h1, h2, h3⟩ := (C5_lifo_round_trip 3 zeroHeap 0 0 _ _ 1 true true hrun rfl
    (Nat.succ_pos 1 : 0 < (2 : Nat)) rfl).1
  exact ⟨_, w1, w2, hrun, rfl, h1, h2, h3⟩

/-- C10, as stated, fails on an idle slice that holds one connection twice (reached
when a caller releases the same connection twice): with a passing first check
and a failing second one the sweep keeps the connection in the idle slice and
closes it, so a survivor is not open. -/
theorem C10_counterexample :
    ∃ w, run [Action.acquire true, Action.acquire true, Action.release (some 0) true,
        Action.release (some 0) true] (World.start 2 zeroHeap 0 0) = some w ∧
      w.pool.idle = [0, 0] ∧
      (cleanIdle (fun i => decide (i = 0)) w).pool.idle = [0] ∧
      ((cleanIdle (fun i => decide (i = 0)) w).heap 0).closed = true :=
  ⟨_, rfl, rfl, rfl, rfl⟩

/-- C10, amended: one sweep over an idle slice in which no connection occurs twice,
for any outcomes of the health checks, leaves the idle slice equal to the
sub-list, in the original order, of the connections that passed the health
check and are not closed; every connection removed is closed afterwards,
every survivor is still open, and the slice gains no element. -/
theorem C10_sweep (w : World) (rand : Nat → Bool) (hnd : w.pool.idle.Nodup) :
    (cleanIdle rand w).pool.idle = survivors w.heap rand 0 w.pool.idle ∧
    (cleanIdle rand w).pool.idle.Sublist w.pool.idle ∧
    (∀ c ∈ w.pool.idle, c ∉ (cleanIdle rand w).pool.idle →
      ((cleanIdle rand w).heap c).closed = true) ∧
    (∀ c ∈ (cleanIdle rand w).pool.idle, ((cleanIdle rand w).heap c).closed = false) ∧
    (cleanIdle rand w).pool.idle.length ≤ w.pool.idle.length := by
  have hi := cleanIdle_idle_nodup rand w hnd
  have hsub := cleanIdle_idle_sublist rand w
  refine ⟨hi, hsub, ?_, ?_, hsub.length_le⟩
  · intro c hc hnot
    rw [hi] at hnot
    exact cleanIdleLoop_evicted rand w.pool.idle 0 w.heap [] hnd c hc hnot
  · intro c hc
    rw [hi] at hc
    show ((cleanIdleLoop rand 0 w.pool.idle w.heap []).1 c).closed = false
    rw [cleanIdleLoop_kept rand w.pool.idle 0 w.heap [] hnd c hc]
    exact survivors_open w.heap rand w.pool.idle 0 c hc

/-- C10 amended, on a concrete state: three idle connections, the middle one fails
its health check. -/
theorem C10_sweep_witness :
    ∃ w, run [Action.acquire true, Action.acquire true, Action.acquire true,
        Action.release (some 0) true, Action.release (some 1) true,
        Action.release (some 2) true] (World.start 3 zeroHeap 0 0) = some w ∧
      w.pool.idle = [0, 1, 2] ∧
      (cleanIdle (fun i => decide (i ≠ 1)) w).pool.idle = [0, 2] ∧
      ((cleanIdle (fun i => decide (i ≠ 1)) w).heap 1).closed = true ∧
      (∀ c ∈ (cleanIdle (fun i => decide (i ≠ 1)) w).pool.idle,
        ((cleanIdle (fun i => decide (i ≠ 1)) w).heap c).closed = false) :=
  ⟨_, rfl, rfl, rfl,
    (C10_sweep _ (fun i => decide (i ≠ 1)) (by decide)).2.2.1 1 (by decide) (by decide),
    (C10_sweep _ (fun i => decide (i ≠ 1)) (by decide)).2.2.2.1⟩

/-- C8: in every state reached from `NewPool(n)` by Acquire, Release, sweep and
Drain steps under the caller contract, the idle slice holds no connection
twice, no borrowed connection and no closed connection; no connection is lent
twice, every borrowed connection is open, and one ticket is held per borrowed
connection. Moreover a step of the pool leaves every connection borrowed by
another caller borrowed and open: it is closed by nobody. -/
theorem C8_exclusive_states (n : Int) (heap : Nat → Connection) (next : Nat) (ctr : Int)
    (acts : List Action) (w : World)
    (h : runContract acts (World.start n heap next ctr) = some w) :
    w.pool.idle.Nodup ∧ w.borrowed.Nodup ∧
    (∀ c ∈ w.pool.idle, c ∉ w.borrowed ∧ (w.heap c).closed = false) ∧
    (∀ c ∈ w.borrowed, (w.heap c).closed = false) ∧
    w.borrowed.length = w.pool.sem ∧
    (∀ (a : Action) (w' : World), obeys a w = true → step a w = some w' →
      ∀ c ∈ w.borrowed, (∀ rnd, a ≠ Action.release (some c) rnd) →
        c ∈ w'.borrowed ∧ (w'.heap c).closed = false) := by
  have ho := runContract_Owned acts _ _ (Owned_start n heap next ctr) h
  refine ⟨ho.idle_nodup, ho.borrowed_nodup, fun c hc => ⟨ho.apart c hc, ho.idle_open c hc⟩,
    ho.borrowed_open, ho.tickets, ?_⟩
  intro a w' hob hs c hc hn
  have ho' := step_Owned a w w' ho hob hs
  have hc' := step_borrowed_stays a w w' c hc hn hs
  exact ⟨hc', ho'.borrowed_open c hc'⟩

/-- C8, on a concrete run: three connections are borrowed, one is released
unhealthy, one healthy, a sweep evicts nothing; the sweep that follows leaves
the borrowed connection alone. -/
theorem C8_exclusive_states_witness :
    ∃ w w',
      runContract [Action.acquire true, Action.acquire true, Action.acquire true,
        Action.release (some 1) false, Action.release (some 0) true,
        Action.sweep (fun _ => true)] (World.start 3 zeroHeap 0 0) = some w ∧
      w.pool.idle = [0] ∧ w.borrowed = [2] ∧ (w.heap 1).closed = true ∧
      step (Action.sweep (fun _ => false)) w = some w' ∧
      2 ∈ w'.borrowed ∧ (w'.heap 2).closed = false :=
  have hrun : runContract [Action.acquire true, Action.acquire true, Action.acquire true,
      Action.release (some 1) false, Action.release (some 0) true,
      Action.sweep (fun _ => true)] (World.start 3 zeroHeap 0 0) = some _ := rfl
  ⟨_, _, hrun, rfl, rfl, rfl, rfl,
    (C8_exclusive_states 3 zeroHeap 0 0 _ _ hrun).2.2.2.2.2
      (Action.sweep (fun _ => false)) _ rfl rfl 2 (by decide) (fun _ e => by cases e)⟩

/-- C9, as stated, fails: in the scenario (capacity 10, three outstanding, four
idle) the pool after the start of `Drain` is waiting for the three borrows, and
the four idle connections are all still open and still in the idle slice;
`Drain` cannot finish there; and after the three outstanding connections
have been released `IdleCount` still returns 4. -/
theorem C9_counterexample :
    ∃ w1 w2, run (drainScenario ++ [Action.drainBegin]) (World.start 10 zeroHeap 0 0) = some w1 ∧
      w1.pool.wg = 3 ∧ w1.pool.once = OnceState.running ∧ w1.pool.idle = [3, 4, 5, 6] ∧
      (∀ c ∈ w1.pool.idle, (w1.heap c).closed = false) ∧
      step Action.drainFinish w1 = none ∧
      run [Action.release (some 0) true, Action.release (some 1) true,
        Action.release (some 2) true] w1 = some w2 ∧
      IdleCount w2 = 4 ∧ (∀ c ∈ w2.pool.idle, (w2.heap c).closed = false) :=
  ⟨_, _, rfl, rfl, rfl, rfl, by decide, rfl, rfl, rfl, by decide⟩

/-- C9, amended: in the scenario (capacity 10, three outstanding, four idle, under
the caller contract) the start of `Drain` sets the closed flag and leaves the
four idle connections open and idle while it waits for the outstanding
borrows; it cannot finish before they are back. Every outstanding connection
that is released meanwhile is closed and not put back in the idle slice, which
still holds the same four open connections. Once all three are released
`Drain` finishes: it closes the four idle connections and `IdleCount` then
returns 0. -/
theorem C9_drain_scenario (heap : Nat → Connection) (next : Nat) (ctr : Int)
    (acts : List Action) (w : World)
    (h : runContract acts (World.start 10 heap next ctr) = some w)
    (hfresh : w.pool.once = OnceState.fresh)
    (hout : w.borrowed.length = 3) (hidle : w.pool.idle.length = 4) :
    step Action.drainBegin w = some (drainBegin w) ∧ (drainBegin w).pool.closed = true ∧
    IdleCount (drainBegin w) = 4 ∧
    (∀ c ∈ (drainBegin w).pool.idle, ((drainBegin w).heap c).closed = false) ∧
    step Action.drainFinish (drainBegin w) = none ∧
    ∀ (rels : List Action) (w2 : World),
      (∀ a ∈ rels, ∃ c rnd, a = Action.release (some c) rnd) →
      runContract rels (drainBegin w) = some w2 →
        w2.pool.idle = w.pool.idle ∧ IdleCount w2 = 4 ∧
        (∀ c ∈ w2.pool.idle, (w2.heap c).closed = false) ∧
        (∀ c ∈ w.borrowed, c ∉ w2.borrowed → (w2.heap c).closed = true) ∧
        (w2.borrowed ≠ [] → step Action.drainFinish w2 = none) ∧
        (w2.borrowed = [] → step Action.drainFinish w2 = some (drainFinish w2) ∧
          IdleCount (drainFinish w2) = 0 ∧
          ∀ c ∈ w.pool.idle, ((drainFinish w2).heap c).closed = true) := by
  have ho := runContract_Owned acts _ _ (Owned_start 10 heap next ctr) h
  obtain ⟨hi, _⟩ := run_Inv acts _ _ (Inv_start 10 heap next ctr) (runContract_run acts _ _ h)
  have hs1 : step Action.drainBegin w = some (drainBegin w) := by simp [step, hfresh]
  have ho1 : Owned (drainBegin w) := step_Owned Action.drainBegin _ _ ho rfl hs1
  obtain ⟨hi1, _⟩ := step_Inv _ _ _ hi hs1
  have hwg1 : (drainBegin w).pool.wg = 3 := by
    show w.pool.wg = 3
    rw [hi.wg_sem, ← ho.tickets, hout]
  refine ⟨hs1, rfl, ?_, ho.idle_open, ?_, ?_⟩
  · show ((w.pool.idle.length : Nat) : Int) = 4
    rw [hidle]; rfl
  · simp [step, hwg1]
  · intro rels w2 hall hrun
    obtain ⟨k1, _, k3, k4, _, k6⟩ := drain_releases rels _ _ ho1 rfl hall hrun
    obtain ⟨hi2, _⟩ := run_Inv rels _ _ hi1 (runContract_run rels _ _ hrun)
    have k1' : w2.pool.idle = w.pool.idle := k1
    have k3' : w2.pool.once = OnceState.running := k3
    have hwg2 : w2.pool.wg = w2.borrowed.length := by rw [hi2.wg_sem, k4.tickets]
    refine ⟨k1', ?_, k4.idle_open, k6, ?_, ?_⟩
    · show ((w2.pool.idle.length : Nat) : Int) = 4
      rw [k1', hidle]; rfl
    · intro hne
      have hpos : w2.borrowed.length ≠ 0 := fun e => hne (List.length_eq_zero.mp e)
      have : w2.pool.wg ≠ 0 := by rw [hwg2]; exact hpos
      simp [step, this]
    · intro hemp
      have hz : w2.pool.wg = 0 := by rw [hwg2, hemp]; rfl
      refine ⟨by simp [step, k3', hz], rfl, ?_⟩
      intro c hc
      show (closeAll w2.pool.idle w2.heap c).closed = true
      rw [k1']
      exact closeAll_closed _ _ _ hc

/-- C9 amended, on the concrete scenario: the three outstanding connections are
released, one of them unhealthy, and `Drain` finishes. -/
theorem C9_drain_scenario_witness :
    ∃ w w2, runContract drainScenario (World.start 10 zeroHeap 0 0) = some w ∧
      w.borrowed = [0, 1, 2] ∧ w.pool.idle = [3, 4, 5, 6] ∧
      IdleCount (drainBegin w) = 4 ∧
      step Action.drainFinish (drainBegin w) = none ∧
      runContract [Action.release (some 1) true, Action.release (some 0) false,
        Action.release (some 2) true] (drainBegin w) = some w2 ∧
      IdleCount w2 = 4 ∧ (w2.heap 0).closed = true ∧
      step Action.drainFinish w2 = some (drainFinish w2) ∧
      IdleCount (drainFinish w2) = 0 ∧
      ∀ c ∈ w.pool.idle, ((drainFinish w2).heap c).closed = true := by
  have hrun : runContract drainScenario (World.start 10 zeroHeap 0 0) = some _ := rfl
  obtain ⟨_, _, hc1, _, hblk, hrest⟩ :=
    C9_drain_scenario zeroHeap 0 0 drainScenario _ hrun rfl rfl rfl
  have hall : ∀ a ∈ [Action.release (some 1) true, Action.release (some 0) false,
      Action.release (some 2) true], ∃ c rnd, a = Action.release (some c) rnd := by
    intro a ha
    simp only [List.mem_cons, List.mem_singleton, List.not_mem_nil, or_false] at ha
    rcases ha with e | e | e
    · exact ⟨1, true, e⟩
    · exact ⟨0, false, e⟩
    · exact ⟨2, true, e⟩
  obtain ⟨_, hc2, _, hcl, _, hfin⟩ := hrest _ _ hall rfl
  obtain ⟨hs3, hc3, hclosed⟩ := hfin rfl
  exact ⟨_, _, hrun, rfl, rfl, hc1, hblk, rfl, hc2,
    hcl 0 (by decide) (by decide), hs3, hc3, hclosed⟩

end pool
